import Mathlib

/-!
Verification development for the commit-sentiment analysis repository.

The Python sources are shallowly embedded as executable Lean definitions:
strings become `List Char`, Python dicts become association lists, floats
become `ℚ` (all confidences and scores in the program arise from decimal
literals and exact arithmetic on small integers, where `ℚ` and IEEE doubles
give the same comparisons), and code that can raise becomes `Option`.
Character classes (`\d`, `\s`, case folding) are modelled over ASCII, which
covers every character the program manipulates.
-/

namespace Spec2Proof

/-! ## Basic character utilities (models of Python str / `re` primitives) -/

/-- Python whitespace (`\s`, `str.strip`), ASCII fragment. -/
def pyWhite (c : Char) : Bool :=
  c = ' ' || c = '\t' || c = '\n' || c = '\r' || c = '\x0b' || c = '\x0c'

/-- Case-insensitive prefix test: models `re.match` of a literal word with
`re.IGNORECASE` (the pattern word `p` is given lower-case). -/
def ciHasPre (p l : List Char) : Bool :=
  p.isPrefixOf (l.map Char.toLower)

/-- The literal words the preprocessor regexes look for. -/
def mergeWord : List Char := "merge".toList

def revertWord : List Char := "revert".toList

def fixeWord : List Char := "fixe".toList

def httpWord : List Char := "http://".toList

def httpsWord : List Char := "https://".toList

/-- Drop whitespace from the end of a list. -/
def dropEndWhile (p : Char → Bool) (l : List Char) : List Char :=
  (l.reverse.dropWhile p).reverse

/-- Python `str.strip()`. -/
def pyStrip (l : List Char) : List Char :=
  dropEndWhile pyWhite (l.dropWhile pyWhite)

/-- Python `s.split(sep)` for a single-character separator. -/
def splitOnChar (sep : Char) : List Char → List (List Char)
  | [] => [[]]
  | c :: cs =>
    if c = sep then [] :: splitOnChar sep cs
    else
      match splitOnChar sep cs with
      | s :: ss => (c :: s) :: ss
      | [] => [[c]]

/-- Substring containment, models Python `pat in s`. -/
def containsSub (pat l : List Char) : Bool :=
  l.tails.any (fun t => pat.isPrefixOf t)

/-! ## `core/preprocessor.py`: `clean_commit_message`

`re.sub(r'^Merge.*', '', message, flags=re.IGNORECASE)`: without
`re.MULTILINE`, `^` anchors only at position 0 and `.` does not cross a
newline, so when the message starts with "merge" (case-insensitively) the
substitution deletes exactly the first line (up to, not including, the
first `'\n'`) and otherwise does nothing. -/

def stripMergeLine (l : List Char) : List Char :=
  if ciHasPre mergeWord l then l.dropWhile (fun c => c ≠ '\n') else l

/-- Model of `re.sub(r'^Revert.*', '', message, flags=re.IGNORECASE)`. -/
def stripRevertLine (l : List Char) : List Char :=
  if ciHasPre revertWord l then l.dropWhile (fun c => c ≠ '\n') else l

/-- One left-to-right pass of `re.sub(r'#\d+', '', message)`: at a `'#'`
followed by at least one digit, the `'#'` and the maximal digit run are
deleted and scanning resumes after them.  Fuel-driven so that the kernel
can evaluate it; `subIssueRefs` supplies sufficient fuel. -/
def subIRf : Nat → List Char → List Char
  | 0, l => l
  | _ + 1, [] => []
  | n + 1, c :: cs =>
    if c = '#' ∧ cs.takeWhile Char.isDigit ≠ [] then
      subIRf n (cs.dropWhile Char.isDigit)
    else c :: subIRf n cs

def subIssueRefs (l : List Char) : List Char := subIRf l.length l

/-- Attempted match of `re` pattern `fixes?\s+#\d+` (IGNORECASE) at the head
of `l`; returns the remainder after the match.  The pattern letters are
`f i x e` then an optional `s`; since `s` is not whitespace, taking the
optional `s` greedily is equivalent to the backtracking semantics. -/
def fixesMatch (l : List Char) : Option (List Char) :=
  if ciHasPre fixeWord l then
    let r0 := l.drop 4
    let r1 := match r0 with
              | c :: rest => if c.toLower = 's' then rest else r0
              | [] => r0
    if r1.takeWhile pyWhite ≠ [] then
      match r1.dropWhile pyWhite with
      | c2 :: r3 =>
        if c2 = '#' ∧ r3.takeWhile Char.isDigit ≠ [] then
          some (r3.dropWhile Char.isDigit)
        else none
      | [] => none
    else none
  else none

/-- Scan pass of `re.sub(r'fixes?\s+#\d+', '', message, flags=re.IGNORECASE)`. -/
def subFixesF : Nat → List Char → List Char
  | 0, l => l
  | _ + 1, [] => []
  | n + 1, c :: cs =>
    match fixesMatch (c :: cs) with
    | some rest => subFixesF n rest
    | none => c :: subFixesF n cs

def subFixes (l : List Char) : List Char := subFixesF l.length l

/-- The single-character body class of the URL pattern
`http[s]?://(?:[a-zA-Z]|[0-9]|[$-_@.&+]|[!*\\(\\),]|(?:%[0-9a-fA-F][0-9a-fA-F]))+`.
The range `$-_` (0x24 to 0x5F) already contains `@ . & + * \ ( ) ,` and `%`,
so the alternation of classes is exactly this predicate, and the trailing
`%XX` alternative adds nothing. -/
def urlChar (c : Char) : Bool :=
  c.isAlpha || c.isDigit || ('$' ≤ c && c ≤ '_') ||
  c = '!' || c = '*' || c = '\\' || c = '(' || c = ')' || c = ','

/-- Scheme part `http[s]?://` of the URL pattern, matched at the head. -/
def urlAfterScheme (l : List Char) : Option (List Char) :=
  if httpWord.isPrefixOf l then some (l.drop 7)
  else if httpsWord.isPrefixOf l then some (l.drop 8)
  else none

/-- Attempted match of the whole URL pattern at the head of `l`
(the `+` requires at least one body character; greedy). -/
def urlMatchAt (l : List Char) : Option (List Char) :=
  match urlAfterScheme l with
  | some rem =>
    if rem.takeWhile urlChar ≠ [] then some (rem.dropWhile urlChar) else none
  | none => none

/-- Scan pass of the URL `re.sub`. -/
def subUrlsF : Nat → List Char → List Char
  | 0, l => l
  | _ + 1, [] => []
  | n + 1, c :: cs =>
    match urlMatchAt (c :: cs) with
    | some rest => subUrlsF n rest
    | none => c :: subUrlsF n cs

def subUrls (l : List Char) : List Char := subUrlsF l.length l

/-- Model of `re.sub(r'\s+', ' ', message)`: each maximal whitespace run
becomes a single space.  The flag records whether we are inside a run. -/
def collapseAux : Bool → List Char → List Char
  | _, [] => []
  | inWs, c :: cs =>
    if pyWhite c then
      (if inWs then collapseAux true cs else ' ' :: collapseAux true cs)
    else c :: collapseAux false cs

/-- `clean_commit_message` from `core/preprocessor.py`, steps in source
order: merge-line removal, revert-line removal, issue-reference removal,
`fixes #N` removal, URL removal, whitespace collapse and strip. -/
def cleanCommitMessage (msg : List Char) : List Char :=
  pyStrip (collapseAux false
    (subUrls (subFixes (subIssueRefs (stripRevertLine (stripMergeLine msg))))))

/-! ## `core/preprocessor.py`: `filter_meaningful_commits`

Commits are Python dicts; we model them as association lists with the
first-occurrence lookup semantics of a dict (keys are unique in any dict
produced by Python).  Values carry the payloads the program actually
stores. -/

inductive PyVal where
  | vStr : List Char → PyVal
  | vInt : Int → PyVal
deriving DecidableEq

abbrev PyDict := List (String × PyVal)

/-- Setting a key in a dict literal `{**d, k: v}`: if `k` is present its
value is replaced in place, otherwise the pair is appended at the end. -/
def setKey (k : String) (v : PyVal) : PyDict → PyDict
  | [] => [(k, v)]
  | (k0, v0) :: rest =>
    if k0 = k then (k, v) :: rest else (k0, v0) :: setKey k v rest

/-- Reading `commit['message']`; `none` models the `KeyError` (missing key)
or `TypeError` (non-string value handed to `re.sub`) that Python raises. -/
def getMessage (c : PyDict) : Option (List Char) :=
  match c.lookup "message" with
  | some (PyVal.vStr m) => some m
  | _ => none

/-- The augmented commit `{**commit, 'cleaned_message': cleaned}` built for
each surviving commit. -/
def augmentDict (c : PyDict) (cleaned : List Char) : PyDict :=
  setKey "cleaned_message" (PyVal.vStr cleaned) c

/-- The filter condition of `filter_meaningful_commits`: the cleaned message
is long enough and its lower-casing starts with neither "merge" nor
"revert". -/
def meaningfulDict (minLength : Nat) (c : PyDict) : Bool :=
  match getMessage c with
  | some m =>
    let cleaned := cleanCommitMessage m
    decide (minLength ≤ cleaned.length) && !ciHasPre mergeWord cleaned &&
      !ciHasPre revertWord cleaned
  | none => false

/-- `filter_meaningful_commits(commits, min_length)`; `none` models an
exception escaping the loop (a commit without a string message). -/
def filterMeaningfulD (minLength : Nat) : List PyDict → Option (List PyDict)
  | [] => some []
  | c :: cs =>
    match getMessage c with
    | none => none
    | some m =>
      let cleaned := cleanCommitMessage m
      if cleaned.length < minLength then filterMeaningfulD minLength cs
      else if ciHasPre mergeWord cleaned then filterMeaningfulD minLength cs
      else if ciHasPre revertWord cleaned then filterMeaningfulD minLength cs
      else (filterMeaningfulD minLength cs).map
        (fun r => augmentDict c cleaned :: r)

/-! A small mutable store, to state what the call does and does not mutate:
Python dicts live on a heap and `filter_meaningful_commits` only reads the
input dicts, allocating a fresh dict per surviving commit. -/

structure Store where
  cells : List PyDict
deriving DecidableEq

/-- Heap-level `filter_meaningful_commits`: the input is a list of addresses
of commit dicts; the result is the extended store and the addresses of the
freshly allocated augmented dicts (or `none` for an escaping exception). -/
def filterMeaningfulH (minLength : Nat) : Store → List Nat → Store × Option (List Nat)
  | st, [] => (st, some [])
  | st, a :: as =>
    match st.cells[a]? with
    | none => (st, none)
    | some c =>
      match getMessage c with
      | none => (st, none)
      | some m =>
        let cleaned := cleanCommitMessage m
        if cleaned.length < minLength ∨ ciHasPre mergeWord cleaned = true ∨
            ciHasPre revertWord cleaned = true then
          filterMeaningfulH minLength st as
        else
          let addr := st.cells.length
          let st1 : Store := ⟨st.cells ++ [augmentDict c cleaned]⟩
          let p := filterMeaningfulH minLength st1 as
          (p.1, p.2.map (fun r => addr :: r))

/-- Read a list of addresses from a dict-reading function; `none` as soon
as one address is dangling. -/
def readAll (f : Nat → Option PyDict) : List Nat → Option (List PyDict)
  | [] => some []
  | a :: as =>
    match f a with
    | none => none
    | some d => (readAll f as).map (fun ds => d :: ds)

/-! ## `moodmap/analyzer/mood_aggregator.py`

Confidences and scores are rationals; every number the module produces is a
sum of the decimal literals `0.1, 0.5, 0.7, 0.8` and exact small-integer
arithmetic, and every comparison the module makes has the same outcome for
IEEE doubles and for `ℚ` (in particular `0.7 + 0.1 > 0.8` is false in both,
because the float sum is `0.7999…`). -/

/-- A sentiment record `{'sentiment': …, 'confidence': …}`. -/
structure SentLabel where
  label : String
  conf : ℚ
deriving DecidableEq

/-- An incoming repository commit: `message` is always read, an incoming
`'sentiment'` entry may or may not be present (it is overwritten by
`_analyze_commits_sentiment` in either case). -/
structure CommitIn where
  message : List Char
  sentiment : Option SentLabel
deriving DecidableEq

structure Repo where
  full_name : String
  stars : Int
  primary_language : Option String
  commits : List CommitIn
deriving DecidableEq

def positiveWords : List (List Char) :=
  ["fix".toList, "add".toList, "improve".toList, "enhance".toList,
   "optimize".toList, "update".toList, "feature".toList]

def negativeWords : List (List Char) :=
  ["bug".toList, "error".toList, "fail".toList, "broken".toList,
   "remove".toList, "delete".toList, "deprecate".toList]

/-- `_mock_sentiment_analysis`: keyword counting on the lower-cased message
(`word in message_lower` is substring containment). -/
def mockSentiment (message : List Char) : SentLabel :=
  let ml := message.map Char.toLower
  let p := positiveWords.countP (fun w => containsSub w ml)
  let n := negativeWords.countP (fun w => containsSub w ml)
  if p > n then ⟨"POSITIVE", 0.7 + (p : ℚ) * 0.1⟩
  else if n > p then ⟨"NEGATIVE", 0.7 + (n : ℚ) * 0.1⟩
  else ⟨"NEUTRAL", 0.5⟩

/-- `_analyze_commits_sentiment` on one commit: `{**commit, 'sentiment':
mock}` — whatever sentiment the commit carried is replaced. -/
def analyzeCommit (c : CommitIn) : CommitIn :=
  { c with sentiment := some (mockSentiment c.message) }

/-- The fixed three-key dict `{'POSITIVE': 0, 'NEUTRAL': 0, 'NEGATIVE': 0}`. -/
structure Counts where
  pos : Nat
  neut : Nat
  neg : Nat
deriving DecidableEq

/-- `sentiment_counts[sentiment] += 1`: a Python dict lookup of a missing
key raises `KeyError`, modelled by `none`. -/
def incrCounts (c : Counts) (lbl : String) : Option Counts :=
  if lbl = "POSITIVE" then some { c with pos := c.pos + 1 }
  else if lbl = "NEUTRAL" then some { c with neut := c.neut + 1 }
  else if lbl = "NEGATIVE" then some { c with neg := c.neg + 1 }
  else none

/-- Total companion of `incrCounts`; they agree on the three categories the
mock labels can produce. -/
def incrCountsT (c : Counts) (lbl : String) : Counts :=
  if lbl = "POSITIVE" then { c with pos := c.pos + 1 }
  else if lbl = "NEUTRAL" then { c with neut := c.neut + 1 }
  else if lbl = "NEGATIVE" then { c with neg := c.neg + 1 }
  else c

structure RepoRef where
  name : String
  stars : Int
  commits_count : Nat
deriving DecidableEq

/-- An element of `top_positive_commits` / `top_negative_commits`. -/
structure TopEntry where
  repo : String
  message : List Char
  conf : ℚ
deriving DecidableEq

/-- The per-language accumulator before the derived statistics are added. -/
structure RawStats where
  total_repos : Nat
  total_commits : Nat
  counts : Counts
  confs : List ℚ
  repositories : List RepoRef
  top_pos : List TopEntry
  top_neg : List TopEntry
deriving DecidableEq

def initRaw : RawStats := ⟨0, 0, ⟨0, 0, 0⟩, [], [], [], []⟩

/-- Folding one analyzed commit into a language bucket (the body of the
`for commit in analyzed_commits` loop).  After `_analyze_commits_sentiment`
the `'sentiment'` key is always present, so the `if 'sentiment' in commit`
guard always passes. -/
def foldCommit (rname : String) (s : RawStats) (c : CommitIn) : Option RawStats :=
  match c.sentiment with
  | none => some s
  | some lab =>
    match incrCounts s.counts lab.label with
    | none => none
    | some counts1 =>
      let entry : TopEntry := ⟨rname, c.message.take 100, lab.conf⟩
      some { s with
        counts := counts1
        confs := s.confs ++ [lab.conf]
        top_pos := if lab.label = "POSITIVE" ∧ lab.conf > 0.8
                   then s.top_pos ++ [entry] else s.top_pos
        top_neg := if ¬(lab.label = "POSITIVE" ∧ lab.conf > 0.8) ∧
                      lab.label = "NEGATIVE" ∧ lab.conf > 0.8
                   then s.top_neg ++ [entry] else s.top_neg }

/-- Total companion of `foldCommit`. -/
def foldCommitT (rname : String) (s : RawStats) (c : CommitIn) : RawStats :=
  match c.sentiment with
  | none => s
  | some lab =>
    let entry : TopEntry := ⟨rname, c.message.take 100, lab.conf⟩
    { s with
      counts := incrCountsT s.counts lab.label
      confs := s.confs ++ [lab.conf]
      top_pos := if lab.label = "POSITIVE" ∧ lab.conf > 0.8
                 then s.top_pos ++ [entry] else s.top_pos
      top_neg := if ¬(lab.label = "POSITIVE" ∧ lab.conf > 0.8) ∧
                    lab.label = "NEGATIVE" ∧ lab.conf > 0.8
                 then s.top_neg ++ [entry] else s.top_neg }

def foldCommits (rname : String) : RawStats → List CommitIn → Option RawStats
  | s, [] => some s
  | s, c :: cs =>
    match foldCommit rname s c with
    | none => none
    | some s1 => foldCommits rname s1 cs

def foldCommitsT (rname : String) : RawStats → List CommitIn → RawStats
  | s, [] => s
  | s, c :: cs => foldCommitsT rname (foldCommitT rname s c) cs

/-- The truthiness test `if not primary_language: continue` together with
`if not commits: continue`. -/
def validRepo (r : Repo) : Bool :=
  (match r.primary_language with
   | some s => s ≠ ""
   | none => false) && r.commits ≠ []

def langOf (r : Repo) : String :=
  match r.primary_language with
  | some s => s
  | none => ""

/-- Folding one repository into its language bucket: the counters bumped
before the commit loop, then the commit loop over the analyzed commits. -/
def addRepo (s : RawStats) (r : Repo) : Option RawStats :=
  foldCommits r.full_name
    { s with
      total_repos := s.total_repos + 1
      total_commits := s.total_commits + r.commits.length
      repositories := s.repositories ++ [⟨r.full_name, r.stars, r.commits.length⟩] }
    (r.commits.map analyzeCommit)

def addRepoT (s : RawStats) (r : Repo) : RawStats :=
  foldCommitsT r.full_name
    { s with
      total_repos := s.total_repos + 1
      total_commits := s.total_commits + r.commits.length
      repositories := s.repositories ++ [⟨r.full_name, r.stars, r.commits.length⟩] }
    (r.commits.map analyzeCommit)

/-- `language_stats[primary_language]` on a `defaultdict`: the bucket is
created (at the end, in insertion order) on first touch, then mutated. -/
def updateAssoc (k : String) (f : RawStats → Option RawStats) :
    List (String × RawStats) → Option (List (String × RawStats))
  | [] => (f initRaw).map (fun s => [(k, s)])
  | (k0, s0) :: rest =>
    if k0 = k then (f s0).map (fun s => (k0, s) :: rest)
    else (updateAssoc k f rest).map (fun acc => (k0, s0) :: acc)

def updateAssocT (k : String) (f : RawStats → RawStats) :
    List (String × RawStats) → List (String × RawStats)
  | [] => [(k, f initRaw)]
  | (k0, s0) :: rest =>
    if k0 = k then (k0, f s0) :: rest
    else (k0, s0) :: updateAssocT k f rest

def processRepos : List (String × RawStats) → List Repo →
    Option (List (String × RawStats))
  | acc, [] => some acc
  | acc, r :: rs =>
    if validRepo r then
      match updateAssoc (langOf r) (fun s => addRepo s r) acc with
      | none => none
      | some acc1 => processRepos acc1 rs
    else processRepos acc rs

def processReposT : List (String × RawStats) → List Repo →
    List (String × RawStats)
  | acc, [] => acc
  | acc, r :: rs =>
    if validRepo r then
      processReposT (updateAssocT (langOf r) (fun s => addRepoT s r) acc) rs
    else processReposT acc rs

/-- `_calculate_mood_score`. -/
def moodScore (c : Counts) : ℚ :=
  let total := c.pos + c.neut + c.neg
  if total = 0 then 0 else ((c.pos : ℚ) - (c.neg : ℚ)) / (total : ℚ)

/-- `_calculate_sentiment_distribution`. -/
def sentimentDistribution (c : Counts) : ℚ × ℚ × ℚ :=
  let total := c.pos + c.neut + c.neg
  if total = 0 then (0, 0, 0)
  else (((c.pos : ℚ) / total) * 100, ((c.neut : ℚ) / total) * 100,
        ((c.neg : ℚ) / total) * 100)

/-- Stable insertion for a descending sort by confidence: an element goes in
front of the first strictly-smaller key, i.e. after every earlier element of
equal or larger key — exactly the order Python stable `sorted(…,
key=confidence, reverse=True)` produces. -/
def insertDesc (e : TopEntry) : List TopEntry → List TopEntry
  | [] => [e]
  | x :: xs => if e.conf ≥ x.conf then e :: x :: xs else x :: insertDesc e xs

def sortDesc : List TopEntry → List TopEntry
  | [] => []
  | e :: xs => insertDesc e (sortDesc xs)

/-- A finalized per-language bucket. -/
structure LangStats where
  total_repos : Nat
  total_commits : Nat
  counts : Counts
  confs : List ℚ
  repositories : List RepoRef
  average_confidence : ℚ
  dist : ℚ × ℚ × ℚ
  mood_score : ℚ
  top_pos : List TopEntry
  top_neg : List TopEntry
deriving DecidableEq

/-- The derived-statistics pass at the end of `aggregate_by_language`. -/
def finalizeStats (s : RawStats) : LangStats :=
  { total_repos := s.total_repos
    total_commits := s.total_commits
    counts := s.counts
    confs := s.confs
    repositories := s.repositories
    average_confidence :=
      if s.confs = [] then 0 else s.confs.sum / (s.confs.length : ℚ)
    dist := sentimentDistribution s.counts
    mood_score := moodScore s.counts
    top_pos := (sortDesc s.top_pos).take 10
    top_neg := (sortDesc s.top_neg).take 10 }

/-- `aggregate_by_language`; `none` models an uncaught exception. -/
def aggregateByLanguage (repos : List Repo) : Option (List (String × LangStats)) :=
  (processRepos [] repos).map (List.map (fun p => (p.1, finalizeStats p.2)))

/-- Total companion of `aggregateByLanguage`. -/
def aggregateByLanguageT (repos : List Repo) : List (String × LangStats) :=
  (processReposT [] repos).map (fun p => (p.1, finalizeStats p.2))

/-! ## `_detect_region_from_commits` -/

/-- Python `int(s)` on the strings this program feeds it: optional
whitespace, optional sign, then at least one ASCII digit (other exotic
accepted forms such as digit-group underscores never reach this call site
and are rejected here, matching the `ValueError` path). -/
def digitsToNat (ds : List Char) : Option Nat :=
  if ds ≠ [] ∧ ds.all Char.isDigit then
    some (ds.foldl (fun a c => 10 * a + (c.toNat - 48)) 0)
  else none

def pyInt (s : List Char) : Option Int :=
  let t := pyStrip s
  match t with
  | '+' :: ds => (digitsToNat ds).map Int.ofNat
  | '-' :: ds => (digitsToNat ds).map (fun n => -(n : Int))
  | ds => (digitsToNat ds).map Int.ofNat

/-- A commit as seen by region detection; `date` models
`commit.get('author', {}).get('date', '')`. -/
structure RCommit where
  date : List Char
deriving DecidableEq

/-- The per-commit offset extraction of `_detect_region_from_commits`:
`date_str.split('+')[1].split(':')[0]` when a `'+'` occurs anywhere,
otherwise `-int(date_str.split('-')[1].split(':')[0])` when a `'-'` occurs
anywhere; a failed `int` is skipped (`ValueError` caught). -/
def parseOffsetOfDate (d : List Char) : Option Int :=
  if d = [] then none
  else if d.contains '+' then
    match splitOnChar '+' d with
    | _ :: seg :: _ => pyInt (seg.takeWhile (fun c => c ≠ ':'))
    | _ => none
  else if d.contains '-' then
    match splitOnChar '-' d with
    | _ :: seg :: _ => (pyInt (seg.takeWhile (fun c => c ≠ ':'))).map (fun n => -n)
    | _ => none
  else none

/-- The offsets gathered from the first 10 commits. -/
def timezonesOf (cs : List RCommit) : List Int :=
  (cs.take 10).filterMap (fun c => parseOffsetOfDate c.date)

/-- `statistics.mean` of the collected integer offsets. -/
def meanOffset (tz : List Int) : ℚ :=
  ((tz.sum : ℚ)) / ((tz.length : ℚ))

/-- The `if/elif` range table mapping a mean offset to a region tag, in
source order (so the `[7,9]` Asia_Southeast test precedes the overlapping
`[8,10]` Asia_East test). -/
def regionOfMean (q : ℚ) : String :=
  if -12 ≤ q ∧ q ≤ -8 then "Americas_West"
  else if -7 ≤ q ∧ q ≤ -5 then "Americas_Central"
  else if -4 ≤ q ∧ q ≤ -2 then "Americas_East"
  else if -1 ≤ q ∧ q ≤ 1 then "Europe_West"
  else if 2 ≤ q ∧ q ≤ 4 then "Europe_East"
  else if 5 ≤ q ∧ q ≤ 6 then "Asia_India"
  else if 7 ≤ q ∧ q ≤ 9 then "Asia_Southeast"
  else if 8 ≤ q ∧ q ≤ 10 then "Asia_East"
  else "Other"

/-- `_detect_region_from_commits`. -/
def detectRegion (cs : List RCommit) : Option String :=
  if cs = [] then none
  else
    let tz := timezonesOf cs
    if tz = [] then none
    else some (regionOfMean (meanOffset tz))

/-! ## `core/git_extractor.py`: `get_comments_from_file`

The function is dispatched on the file extension through one `if/elif`
chain; the branches below appear in source order.  File content is the raw
text; `lines` are its newline-split lines (Python `readlines` keeps the
terminator, which the per-line `strip()` removes again). -/

/-- One line-comment branch body: strip the line, test the literal comment
opener, strip the remainder, keep it when non-empty and longer than 3. -/
def lineCommentsWith (opener : List Char) (lines : List (List Char)) :
    List (List Char) :=
  lines.filterMap (fun line =>
    let s := pyStrip line
    if opener.isPrefixOf s then
      let c := pyStrip (s.drop opener.length)
      if c ≠ [] ∧ 3 < c.length then some c else none
    else none)

/-- The PHP-specific branch: `//` or `#`, with the matching opener length
dropped. -/
def phpLineComments (lines : List (List Char)) : List (List Char) :=
  lines.filterMap (fun line =>
    let s := pyStrip line
    if ("//".toList).isPrefixOf s ∨ (['#']).isPrefixOf s then
      let c := if ("//".toList).isPrefixOf s then pyStrip (s.drop 2)
               else pyStrip (s.drop 1)
      if c ≠ [] ∧ 3 < c.length then some c else none
    else none)

/-- Split at the first `*/`, returning the text before it and after it;
`none` when the comment is unterminated (the lazy regex finds no match). -/
def splitStarClose : List Char → Option (List Char × List Char)
  | [] => none
  | '*' :: '/' :: r => some ([], r)
  | c :: r => (splitStarClose r).map (fun p => (c :: p.1, p.2))

/-- The bodies captured by `re.findall(r'/\*\s*(.*?)\s*\*/', content,
re.DOTALL)`, before the outer-whitespace trim: left-to-right, non
overlapping, each body lazily ending at the first `*/`. -/
def blockBodiesF : Nat → List Char → List (List Char)
  | 0, _ => []
  | _ + 1, [] => []
  | n + 1, '/' :: '*' :: rest =>
    (match splitStarClose rest with
     | some (body, r2) => body :: blockBodiesF n r2
     | none => [])
  | n + 1, _ :: rest => blockBodiesF n rest

def blockBodies (content : List Char) : List (List Char) :=
  blockBodiesF content.length content

/-- The `/* */` branch: split every (trimmed) body into lines, strip each,
keep the ones longer than 3. -/
def blockComments (content : List Char) : List (List Char) :=
  (blockBodies content).flatMap (fun body =>
    (splitOnChar '\n' (pyStrip body)).filterMap (fun line =>
      let s := pyStrip line
      if s ≠ [] ∧ 3 < s.length then some s else none))

/-- Split at the first `-->` for the HTML comment regex. -/
def splitHtmlClose : List Char → Option (List Char × List Char)
  | [] => none
  | '-' :: '-' :: '>' :: r => some ([], r)
  | c :: r => (splitHtmlClose r).map (fun p => (c :: p.1, p.2))

def htmlBodiesF : Nat → List Char → List (List Char)
  | 0, _ => []
  | _ + 1, [] => []
  | n + 1, '<' :: '!' :: '-' :: '-' :: rest =>
    (match splitHtmlClose rest with
     | some (body, r2) => body :: htmlBodiesF n r2
     | none => [])
  | n + 1, _ :: rest => htmlBodiesF n rest

def htmlBodies (content : List Char) : List (List Char) :=
  htmlBodiesF content.length content

/-- The HTML branch: whole stripped `<!-- -->` bodies (not split into
lines), then additionally `//` line comments. -/
def htmlComments (content : List Char) (lines : List (List Char)) :
    List (List Char) :=
  ((htmlBodies content).filterMap (fun body =>
    let c := pyStrip body
    if c ≠ [] ∧ 3 < c.length then some c else none)) ++
  lineCommentsWith ("//".toList) lines

def hashExts : List String :=
  [".py", ".rb", ".r", ".pl", ".sh", ".bash", ".zsh", ".fish", ".ps1",
   ".yaml", ".yml"]

def slashExts : List String :=
  [".js", ".ts", ".jsx", ".tsx", ".java", ".c", ".cpp", ".h", ".hpp",
   ".cs", ".go", ".rs", ".kt", ".swift", ".dart", ".scala", ".m"]

def dashExts : List String := [".sql", ".lua", ".hs"]

def percentExts : List String := [".m", ".matlab"]

def htmlExts : List String := [".html", ".htm", ".xml", ".vue", ".svelte"]

def blockExts : List String :=
  [".c", ".cpp", ".h", ".hpp", ".java", ".js", ".ts", ".jsx", ".tsx",
   ".cs", ".php", ".scala", ".swift", ".kt", ".dart"]

def shellExts : List String := [".sh", ".bash", ".zsh", ".fish"]

/-- `get_comments_from_file`, dispatch chain in source order.  Because the
chain is `elif`-structured, only the first matching branch runs; in
particular `.php` is caught by the `/* */` branch (whose extension list
contains it) and the later PHP-specific branch is unreachable, as are all
of the later single-extension branches. -/
def getCommentsFromFile (ext : String) (content : List Char) :
    List (List Char) :=
  let lines := splitOnChar '\n' content
  if ext ∈ hashExts then lineCommentsWith ['#'] lines
  else if ext ∈ slashExts then lineCommentsWith ("//".toList) lines
  else if ext ∈ dashExts then lineCommentsWith ("--".toList) lines
  else if ext ∈ percentExts then lineCommentsWith ['%'] lines
  else if ext ∈ htmlExts then htmlComments content lines
  else if ext ∈ blockExts then blockComments content
  else if ext = ".php" then phpLineComments lines
  else if ext = ".rb" then lineCommentsWith ['#'] lines
  else if ext = ".go" then lineCommentsWith ("//".toList) lines
  else if ext = ".rs" then lineCommentsWith ("//".toList) lines
  else if ext = ".cs" then lineCommentsWith ("//".toList) lines
  else if ext = ".swift" then lineCommentsWith ("//".toList) lines
  else if ext = ".kt" then lineCommentsWith ("//".toList) lines
  else if ext = ".scala" then lineCommentsWith ("//".toList) lines
  else if ext = ".dart" then lineCommentsWith ("//".toList) lines
  else if ext = ".lua" then lineCommentsWith ("--".toList) lines
  else if ext = ".pl" then lineCommentsWith ['#'] lines
  else if ext ∈ shellExts then lineCommentsWith ['#'] lines
  else if ext = ".ps1" then lineCommentsWith ['#'] lines
  else if ext = ".sql" then lineCommentsWith ("--".toList) lines
  else []

/-! ## Specification-side predicates and derived views used by the claims -/

/-- No `#` immediately followed by a digit occurs in the list. -/
def noHashDigit (l : List Char) : Prop :=
  l.Chain' (fun a b => ¬(a = '#' ∧ b.isDigit = true))

/-- Some position of the list matches the URL pattern. -/
def hasUrlToken : List Char → Bool
  | [] => false
  | c :: cs => (urlMatchAt (c :: cs)).isSome || hasUrlToken cs

/-- Whitespace is normalized: no two adjacent whitespace characters, every
whitespace character is a plain space, and the ends are not whitespace. -/
def wsNormalized (l : List Char) : Prop :=
  l.Chain' (fun a b => ¬(pyWhite a = true ∧ pyWhite b = true)) ∧
  (∀ c ∈ l, pyWhite c = true → c = ' ') ∧
  (∀ c, l.head? = some c → pyWhite c = false) ∧
  (∀ c, l.getLast? = some c → pyWhite c = false)

/-- Rewrite the incoming `'sentiment'` entries of one repository's commits. -/
def setRepoSent (f : CommitIn → Option SentLabel) (r : Repo) : Repo :=
  { r with commits := r.commits.map (fun c => { c with sentiment := f c }) }

/-- Rewrite the incoming `'sentiment'` entries of all commits (used to state
that aggregation never looks at them). -/
def setSentiments (f : CommitIn → Option SentLabel) (repos : List Repo) : List Repo :=
  repos.map (setRepoSent f)

def sumCounts (c : Counts) : Nat := c.pos + c.neut + c.neg

/-- The repositories that contribute to the bucket of language `L`. -/
def validWithLang (repos : List Repo) (L : String) : List Repo :=
  repos.filter (fun r => validRepo r && decide (langOf r = L))

/-- The record appended to a top-commits list for one commit. -/
def entryOfCommit (rname : String) (c : CommitIn) : TopEntry :=
  ⟨rname, c.message.take 100, (mockSentiment c.message).conf⟩

/-- The commits the fold appends to `top_positive_commits`. -/
def posEntryOf (rname : String) (c : CommitIn) : Option TopEntry :=
  let lab := mockSentiment c.message
  if lab.label = "POSITIVE" ∧ lab.conf > 0.8 then some (entryOfCommit rname c)
  else none

/-- The commits the fold appends to `top_negative_commits` (the `elif`
keeps the positive test in the condition). -/
def negEntryOf (rname : String) (c : CommitIn) : Option TopEntry :=
  let lab := mockSentiment c.message
  if ¬(lab.label = "POSITIVE" ∧ lab.conf > 0.8) ∧
      lab.label = "NEGATIVE" ∧ lab.conf > 0.8 then some (entryOfCommit rname c)
  else none

/-- All entries appended to a language bucket's positive list, in fold
order. -/
def posFoldEntries (repos : List Repo) (L : String) : List TopEntry :=
  (validWithLang repos L).flatMap (fun r => r.commits.filterMap (posEntryOf r.full_name))

def negFoldEntries (repos : List Repo) (L : String) : List TopEntry :=
  (validWithLang repos L).flatMap (fun r => r.commits.filterMap (negEntryOf r.full_name))

/-- Modelled from the spec: the claimed rule for `top_positive_commits` —
the at-most-10 highest-confidence commits of the bucket whose mock label is
POSITIVE (no confidence threshold), stably sorted descending. -/
def claimedTopPositive (repos : List Repo) (L : String) : List TopEntry :=
  (sortDesc ((validWithLang repos L).flatMap (fun r =>
    (r.commits.filter
        (fun c => decide ((mockSentiment c.message).label = "POSITIVE"))).map
      (entryOfCommit r.full_name)))).take 10

/-- Total commit count contributed to the bucket of language `L`. -/
def commitsCountOf (repos : List Repo) (L : String) : Nat :=
  ((validWithLang repos L).map (fun r => r.commits.length)).sum

/-- The evolution of one language's bucket along the repository fold (used
to relate the keyed fold to the per-language gather). -/
def gFold (L : String) : Option RawStats → List Repo → Option RawStats
  | o, [] => o
  | o, r :: rs =>
    if validRepo r = true ∧ langOf r = L then
      gFold L (some (addRepoT (o.getD initRaw) r)) rs
    else gFold L o rs

/-- The augmented copy `filter_meaningful_commits` builds of a surviving
commit. -/
def augmentOf (c : PyDict) : PyDict :=
  augmentDict c (cleanCommitMessage ((getMessage c).getD []))

/-! Concrete inputs used by witnesses and counterexamples. -/

/-- A repository whose single commit carries an external ERROR label. -/
def wRepoErr : Repo :=
  ⟨"octo/demo", 1, some "Python", [⟨[], some ⟨"ERROR", 0⟩⟩]⟩

/-- A repository whose single commit carries no sentiment label at all. -/
def wRepoNoSent : Repo :=
  ⟨"octo/alpha", 2, some "Python", [⟨"hello".toList, none⟩]⟩

/-- A repository with one POSITIVE commit of mock confidence exactly 0.8. -/
def wRepoFix : Repo :=
  ⟨"octo/beta", 3, some "Python", [⟨"fix".toList, none⟩]⟩

/-- A repository with one NEGATIVE commit of mock confidence 0.9. -/
def wRepoBug : Repo :=
  ⟨"octo/gamma", 4, some "Python", [⟨"bug error".toList, none⟩]⟩

/-! ## Claim C8: mood score -/

/-- C8: for every sentiment_counts mapping, the mood score equals
(POSITIVE − NEGATIVE) divided by the total of all counts, equals 0 when the
total is 0, always lies in [−1, 1], and equals 0 whenever POSITIVE and
NEGATIVE are equal (including both zero). -/
theorem c8_mood_score (p z n : Nat) :
    (p + z + n = 0 → moodScore ⟨p, z, n⟩ = 0) ∧
    (p + z + n ≠ 0 →
      moodScore ⟨p, z, n⟩ = ((p : ℚ) - (n : ℚ)) / ((p + z + n : Nat) : ℚ)) ∧
    (-1 ≤ moodScore ⟨p, z, n⟩ ∧ moodScore ⟨p, z, n⟩ ≤ 1) ∧
    (p = n → moodScore ⟨p, z, n⟩ = 0) := by
  have hform : ∀ h : ¬ p + z + n = 0,
      moodScore ⟨p, z, n⟩ = ((p : ℚ) - (n : ℚ)) / ((p + z + n : Nat) : ℚ) := by
    intro h
    simp only [moodScore, if_neg h]
  refine ⟨fun h => by simp only [moodScore, if_pos h], hform, ?_, ?_⟩
  · by_cases h : p + z + n = 0
    · simp only [moodScore, if_pos h]
      norm_num
    · rw [hform h]
      have ht : (0 : ℚ) < ((p + z + n : Nat) : ℚ) := by
        exact_mod_cast Nat.pos_of_ne_zero h
      constructor
      · rw [le_div_iff₀ ht]
        push_cast
        linarith
      · rw [div_le_one ht]
        push_cast
        linarith
  · intro h
    by_cases ht : p + z + n = 0
    · simp only [moodScore, if_pos ht]
    · rw [hform ht, h, sub_self, zero_div]

/-- Witness for C8 at counts (2, 1, 2). -/
theorem c8_mood_score_witness :
    moodScore ⟨2, 1, 2⟩ = ((2 : ℚ) - (2 : ℚ)) / ((2 + 1 + 2 : Nat) : ℚ) ∧
    (-1 ≤ moodScore ⟨2, 1, 2⟩ ∧ moodScore ⟨2, 1, 2⟩ ≤ 1) ∧
    moodScore ⟨2, 1, 2⟩ = 0 :=
  ⟨(c8_mood_score 2 1 2).2.1 (by decide), (c8_mood_score 2 1 2).2.2.1,
    (c8_mood_score 2 1 2).2.2.2 rfl⟩

/-! ## Claim C9: overlapping region ranges resolve to Asia_Southeast -/

/-- C9: a commit sample whose parsed mean UTC offset lies in the overlapping
range [8, 9] yields Asia_Southeast (first-match-wins), and Asia_East is
returned exactly for mean offsets strictly greater than 9 and at most 10. -/
theorem c9_overlap_first_match :
    (∀ cs : List RCommit, 8 ≤ meanOffset (timezonesOf cs) →
      meanOffset (timezonesOf cs) ≤ 9 → timezonesOf cs ≠ [] →
      detectRegion cs = some "Asia_Southeast") ∧
    (∀ cs : List RCommit, detectRegion cs = some "Asia_East" ↔
      (timezonesOf cs ≠ [] ∧ 9 < meanOffset (timezonesOf cs) ∧
        meanOffset (timezonesOf cs) ≤ 10)) := by
  have hcs : ∀ cs : List RCommit, timezonesOf cs ≠ [] → cs ≠ [] := by
    intro cs h hc
    exact h (by simp [hc, timezonesOf])
  have hreg : ∀ q : ℚ, 8 ≤ q → q ≤ 9 → regionOfMean q = "Asia_Southeast" := by
    intro q h8 h9
    unfold regionOfMean
    split_ifs with h1 h2 h3 h4 h5 h6 h7 <;>
      first
        | rfl
        | (exfalso; first
            | linarith [h1.1, h1.2]
            | linarith [h2.1, h2.2]
            | linarith [h3.1, h3.2]
            | linarith [h4.1, h4.2]
            | linarith [h5.1, h5.2]
            | linarith [h6.1, h6.2]
            | exact h7 ⟨by linarith, by linarith⟩)
  have heast : ∀ q : ℚ, regionOfMean q = "Asia_East" ↔ (9 < q ∧ q ≤ 10) := by
    intro q
    unfold regionOfMean
    constructor
    · intro h
      split_ifs at h with h1 h2 h3 h4 h5 h6 h7 h8 <;>
        first
          | exact absurd h (by decide)
          | exact ⟨by by_contra hq; push_neg at hq; exact h7 ⟨by linarith [h8.1], hq⟩,
              h8.2⟩
    · rintro ⟨h9, h10⟩
      split_ifs with h1 h2 h3 h4 h5 h6 h7 h8 <;>
        first
          | rfl
          | (exfalso; first
              | linarith [h1.1, h1.2]
              | linarith [h2.1, h2.2]
              | linarith [h3.1, h3.2]
              | linarith [h4.1, h4.2]
              | linarith [h5.1, h5.2]
              | linarith [h6.1, h6.2]
              | linarith [h7.1, h7.2]
              | exact h8 ⟨by linarith, h10⟩)
  constructor
  · intro cs h8 h9 htz
    rw [detectRegion, if_neg (hcs cs htz)]
    simp only [if_neg htz]
    rw [hreg _ h8 h9]
  · intro cs
    constructor
    · intro h
      rw [detectRegion] at h
      by_cases hc : cs = []
      · rw [if_pos hc] at h
        exact absurd h (by simp)
      · rw [if_neg hc] at h
        by_cases htz : timezonesOf cs = []
        · simp only [if_pos htz] at h
          exact absurd h (by simp)
        · simp only [if_neg htz, Option.some.injEq] at h
          exact ⟨htz, (heast _).1 h⟩
    · rintro ⟨htz, h9, h10⟩
      rw [detectRegion, if_neg (hcs cs htz)]
      simp only [if_neg htz, Option.some.injEq]
      exact (heast _).2 ⟨h9, h10⟩

/-- Witness for C9: two commits with offsets +8 and +9, mean 8.5. -/
theorem c9_overlap_first_match_witness :
    detectRegion [⟨"2024/01/15 10:00:00+08:00".toList⟩,
      ⟨"2024/01/16 11:00:00+09:00".toList⟩] = some "Asia_Southeast" := by
  have htz : timezonesOf [⟨"2024/01/15 10:00:00+08:00".toList⟩,
      ⟨"2024/01/16 11:00:00+09:00".toList⟩] = [8, 9] := by decide
  refine (c9_overlap_first_match).1 _ ?_ ?_ ?_
  · rw [htz]
    norm_num [meanOffset]
  · rw [htz]
    norm_num [meanOffset]
  · rw [htz]
    decide

/-! ## Claim C2: region inference on negative UTC offsets (code bug) -/

/-- C2: counter-evaluation.  For ISO-8601 author dates with offsets −8, −9
and −7 the claim requires the mean −8 and the region Americas_West (third
conjunct: the range table itself would map −8 there), but the code splits
the date on its first `'-'` — the date separator — and parses the month
field `01` as the offset for every one of the three commits, yielding mean
−1 and Europe_West. -/
theorem c2_negative_offset_parses_month :
    timezonesOf [⟨"2024-01-15T10:30:00-08:00".toList⟩,
      ⟨"2024-01-16T09:00:00-09:00".toList⟩,
      ⟨"2024-01-17T08:00:00-07:00".toList⟩] = [-1, -1, -1] ∧
    detectRegion [⟨"2024-01-15T10:30:00-08:00".toList⟩,
      ⟨"2024-01-16T09:00:00-09:00".toList⟩,
      ⟨"2024-01-17T08:00:00-07:00".toList⟩] = some "Europe_West" ∧
    regionOfMean (meanOffset [-8, -9, -7]) = "Americas_West" := by
  have htz : timezonesOf [⟨"2024-01-15T10:30:00-08:00".toList⟩,
      ⟨"2024-01-16T09:00:00-09:00".toList⟩,
      ⟨"2024-01-17T08:00:00-07:00".toList⟩] = [-1, -1, -1] := by decide
  refine ⟨htz, ?_, ?_⟩
  · have h0 : meanOffset [-1, -1, -1] = -1 := by norm_num [meanOffset]
    rw [detectRegion, if_neg (by decide)]
    simp only [htz]
    rw [if_neg (by decide), h0, regionOfMean]
    norm_num
  · have h0 : meanOffset [-8, -9, -7] = -8 := by norm_num [meanOffset]
    rw [h0, regionOfMean]
    norm_num

/-! ## Claim C3: PHP line comments are never extracted (code bug) -/

/-- C3: counter-evaluation.  For a `.php` file containing both a long `//`
line comment and a `/* */` block comment, only the block comment is
returned: the `elif` chain dispatches `.php` to the block branch, so the
later PHP-specific branch (third conjunct: it would have extracted the line
comment) is unreachable. -/
theorem c3_php_line_comment_missing :
    getCommentsFromFile ".php"
      ("// a long line comment\n/* block body */\n".toList) =
      ["block body".toList] ∧
    ¬ ("a long line comment".toList ∈ getCommentsFromFile ".php"
      ("// a long line comment\n/* block body */\n".toList)) ∧
    phpLineComments (splitOnChar '\n'
      ("// a long line comment\n/* block body */\n".toList)) =
      ["a long line comment".toList] := by
  refine ⟨by decide, by decide, by decide⟩

/-! ## Claim C6: filter_meaningful_commits selects exactly the meaningful
commits, in order -/

theorem filterD_spec (minLength : Nat) :
    ∀ commits : List PyDict, (∀ c ∈ commits, (getMessage c).isSome) →
    filterMeaningfulD minLength commits =
      some ((commits.filter (meaningfulDict minLength)).map augmentOf) := by
  intro commits h
  induction commits with
  | nil => simp [filterMeaningfulD]
  | cons c cs ih =>
    obtain ⟨m, hm⟩ := Option.isSome_iff_exists.mp (h c (List.mem_cons_self c cs))
    have ih' := ih (fun d hd => h d (List.mem_cons_of_mem c hd))
    by_cases h1 : (cleanCommitMessage m).length < minLength
    · have hmd : meaningfulDict minLength c = false := by
        simp [meaningfulDict, hm, Nat.not_le.mpr h1]
      simp [filterMeaningfulD, hm, h1, List.filter_cons, hmd, ih']
    · by_cases h2 : ciHasPre mergeWord (cleanCommitMessage m) = true
      · have hmd : meaningfulDict minLength c = false := by
          simp [meaningfulDict, hm, h2]
        simp [filterMeaningfulD, hm, h1, h2, List.filter_cons, hmd, ih']
      · by_cases h3 : ciHasPre revertWord (cleanCommitMessage m) = true
        · have hmd : meaningfulDict minLength c = false := by
            simp [meaningfulDict, hm, h3]
          simp [filterMeaningfulD, hm, h1, h2, h3, List.filter_cons, hmd, ih']
        · have hmd : meaningfulDict minLength c = true := by
            simp [meaningfulDict, hm, h2, h3, Nat.not_lt.mp h1]
          simp [filterMeaningfulD, hm, h1, h2, h3, List.filter_cons, hmd, ih',
            augmentOf]

/-- C6: `filter_meaningful_commits(commits, min_length)` returns, in input
order, exactly those commits whose cleaned message is at least
`min_length` long and whose lower-cased cleaned message starts with neither
"merge" nor "revert" (each surviving commit augmented with its
`cleaned_message`); in particular, on the two-commit example only the
second commit survives. -/
theorem c6_filter_meaningful (commits : List PyDict) (minLength : Nat)
    (h : ∀ c ∈ commits, (getMessage c).isSome) :
    filterMeaningfulD minLength commits =
      some ((commits.filter (meaningfulDict minLength)).map augmentOf) ∧
    filterMeaningfulD 5
      [[("message", PyVal.vStr "a".toList)],
       [("message", PyVal.vStr "Fix real issue".toList)]] =
      some [[("message", PyVal.vStr "Fix real issue".toList),
             ("cleaned_message", PyVal.vStr "Fix real issue".toList)]] :=
  ⟨filterD_spec minLength commits h, by decide⟩

/-- Witness for C6 at the two-commit example from the spec. -/
theorem c6_filter_meaningful_witness :
    filterMeaningfulD 5
      [[("message", PyVal.vStr "a".toList)],
       [("message", PyVal.vStr "Fix real issue".toList)]] =
      some (([[("message", PyVal.vStr "a".toList)],
        [("message", PyVal.vStr "Fix real issue".toList)]].filter
          (meaningfulDict 5)).map augmentOf) :=
  (c6_filter_meaningful
    [[("message", PyVal.vStr "a".toList)],
     [("message", PyVal.vStr "Fix real issue".toList)]] 5 (by decide)).1

/-! ## Claim C10: filter_meaningful_commits mutates nothing and returns
fresh augmented dicts -/

theorem lookup_setKey_self (k : String) (v : PyVal) :
    ∀ d : PyDict, (setKey k v d).lookup k = some v := by
  intro d
  induction d with
  | nil => simp [setKey, List.lookup]
  | cons p rest ih =>
    obtain ⟨k0, v0⟩ := p
    by_cases h : k0 = k
    · simp [setKey, h, List.lookup]
    · have hbe : (k == k0) = false := by
        simp only [beq_eq_false_iff_ne, ne_eq]
        exact fun hh => h hh.symm
      simp [setKey, h, List.lookup, hbe, ih]

theorem lookup_setKey_other (k k' : String) (v : PyVal) (hk : k' ≠ k) :
    ∀ d : PyDict, (setKey k v d).lookup k' = d.lookup k' := by
  have hbe : (k' == k) = false := by
    simp only [beq_eq_false_iff_ne, ne_eq]
    exact hk
  intro d
  induction d with
  | nil => simp [setKey, List.lookup, hbe]
  | cons p rest ih =>
    obtain ⟨k0, v0⟩ := p
    by_cases h : k0 = k
    · subst h
      simp [setKey, List.lookup, hbe]
    · simp [setKey, h, List.lookup, ih]

theorem readAll_congr (f g : Nat → Option PyDict) :
    ∀ l : List Nat, (∀ a ∈ l, f a = g a) → readAll f l = readAll g l := by
  intro l h
  induction l with
  | nil => rfl
  | cons a as ih =>
    simp only [readAll, h a (List.mem_cons_self a as),
      ih (fun b hb => h b (List.mem_cons_of_mem a hb))]

theorem filterD_cons_skip (n : Nat) (c : PyDict) (ds : List PyDict)
    (m : List Char) (hm : getMessage c = some m)
    (hskip : (cleanCommitMessage m).length < n ∨
      ciHasPre mergeWord (cleanCommitMessage m) = true ∨
      ciHasPre revertWord (cleanCommitMessage m) = true) :
    filterMeaningfulD n (c :: ds) = filterMeaningfulD n ds := by
  by_cases h1 : (cleanCommitMessage m).length < n
  · simp [filterMeaningfulD, hm, h1]
  · by_cases h2 : ciHasPre mergeWord (cleanCommitMessage m) = true
    · simp [filterMeaningfulD, hm, h1, h2]
    · have h3 : ciHasPre revertWord (cleanCommitMessage m) = true := by
        rcases hskip with h | h | h
        · exact absurd h h1
        · exact absurd h h2
        · exact h
      simp [filterMeaningfulD, hm, h1, h2, h3]

theorem filterD_cons_keep (n : Nat) (c : PyDict) (ds : List PyDict)
    (m : List Char) (hm : getMessage c = some m)
    (hkeep : ¬((cleanCommitMessage m).length < n ∨
      ciHasPre mergeWord (cleanCommitMessage m) = true ∨
      ciHasPre revertWord (cleanCommitMessage m) = true)) :
    filterMeaningfulD n (c :: ds) = (filterMeaningfulD n ds).map
      (fun r => augmentDict c (cleanCommitMessage m) :: r) := by
  push_neg at hkeep
  obtain ⟨h1, h2, h3⟩ := hkeep
  simp [filterMeaningfulD, hm, h1, h2, h3]

/-! Step equations for `filterMeaningfulH`. -/

theorem filterH_cons_bad (n : Nat) (st : Store) (a : Nat) (as : List Nat)
    (h : st.cells[a]? = none) :
    filterMeaningfulH n st (a :: as) = (st, none) := by
  simp [filterMeaningfulH, h]

theorem filterH_cons_nomsg (n : Nat) (st : Store) (a : Nat) (as : List Nat)
    (c : PyDict) (hc : st.cells[a]? = some c) (hm : getMessage c = none) :
    filterMeaningfulH n st (a :: as) = (st, none) := by
  simp [filterMeaningfulH, hc, hm]

theorem filterH_cons_skip (n : Nat) (st : Store) (a : Nat) (as : List Nat)
    (c : PyDict) (m : List Char)
    (hc : st.cells[a]? = some c) (hm : getMessage c = some m)
    (hskip : (cleanCommitMessage m).length < n ∨
      ciHasPre mergeWord (cleanCommitMessage m) = true ∨
      ciHasPre revertWord (cleanCommitMessage m) = true) :
    filterMeaningfulH n st (a :: as) = filterMeaningfulH n st as := by
  simp only [filterMeaningfulH, hc, hm]
  rw [if_pos hskip]

theorem filterH_cons_keep (n : Nat) (st : Store) (a : Nat) (as : List Nat)
    (c : PyDict) (m : List Char)
    (hc : st.cells[a]? = some c) (hm : getMessage c = some m)
    (hkeep : ¬((cleanCommitMessage m).length < n ∨
      ciHasPre mergeWord (cleanCommitMessage m) = true ∨
      ciHasPre revertWord (cleanCommitMessage m) = true)) :
    filterMeaningfulH n st (a :: as) =
      ((filterMeaningfulH n
          ⟨st.cells ++ [augmentDict c (cleanCommitMessage m)]⟩ as).1,
        ((filterMeaningfulH n
          ⟨st.cells ++ [augmentDict c (cleanCommitMessage m)]⟩ as).2).map
          (fun r => st.cells.length :: r)) := by
  simp only [filterMeaningfulH, hc, hm]
  rw [if_neg hkeep]

theorem filterH_frame (n : Nat) :
    ∀ (as : List Nat) (st : Store) (a : Nat), a < st.cells.length →
    ((filterMeaningfulH n st as).1).cells[a]? = st.cells[a]? := by
  intro as
  induction as with
  | nil => intro st a _; rfl
  | cons b bs ih =>
    intro st a ha
    cases hb : st.cells[b]? with
    | none => rw [filterH_cons_bad n st b bs hb]
    | some c =>
      cases hmsg : getMessage c with
      | none => rw [filterH_cons_nomsg n st b bs c hb hmsg]
      | some m =>
        by_cases hskip : (cleanCommitMessage m).length < n ∨
            ciHasPre mergeWord (cleanCommitMessage m) = true ∨
            ciHasPre revertWord (cleanCommitMessage m) = true
        · rw [filterH_cons_skip n st b bs c m hb hmsg hskip]
          exact ih st a ha
        · rw [filterH_cons_keep n st b bs c m hb hmsg hskip]
          have h1 : a <
              (Store.mk (st.cells ++
                [augmentDict c (cleanCommitMessage m)])).cells.length := by
            simp only [List.length_append, List.length_cons, List.length_nil]
            omega
          rw [ih _ a h1]
          exact List.getElem?_append_left ha

theorem filterH_fresh (n : Nat) :
    ∀ (as : List Nat) (st : Store) (r : List Nat),
    (filterMeaningfulH n st as).2 = some r → ∀ b ∈ r, st.cells.length ≤ b := by
  intro as
  induction as with
  | nil =>
    intro st r hr b hb
    simp only [filterMeaningfulH, Option.some.injEq] at hr
    subst hr
    simp at hb
  | cons a as ih =>
    intro st r hr b hb
    cases hc : st.cells[a]? with
    | none => rw [filterH_cons_bad n st a as hc] at hr; cases hr
    | some c =>
      cases hmsg : getMessage c with
      | none => rw [filterH_cons_nomsg n st a as c hc hmsg] at hr; cases hr
      | some m =>
        by_cases hskip : (cleanCommitMessage m).length < n ∨
            ciHasPre mergeWord (cleanCommitMessage m) = true ∨
            ciHasPre revertWord (cleanCommitMessage m) = true
        · rw [filterH_cons_skip n st a as c m hc hmsg hskip] at hr
          exact ih st r hr b hb
        · rw [filterH_cons_keep n st a as c m hc hmsg hskip] at hr
          simp only [Option.map_eq_some'] at hr
          obtain ⟨r1, hr1, hr2⟩ := hr
          subst hr2
          rcases List.mem_cons.mp hb with hb1 | hb1
          · subst hb1; exact Nat.le_refl _
          · have := ih _ r1 hr1 b hb1
            simp only [List.length_append, List.length_cons,
              List.length_nil] at this
            omega

theorem readAll_none_of_mem (f : Nat → Option PyDict) :
    ∀ (as : List Nat) (x : Nat), x ∈ as → f x = none → readAll f as = none := by
  intro as
  induction as with
  | nil => intro x hx _; simp at hx
  | cons y ys ih =>
    intro x hx hfx
    rcases List.mem_cons.mp hx with h | h
    · subst h
      simp [readAll, hfx]
    · simp only [readAll]
      cases hy : f y with
      | none => rfl
      | some dy => rw [ih x h hfx]; rfl

theorem filterH_content (n : Nat) :
    ∀ (as : List Nat) (st : Store) (ds : List PyDict) (r : List Nat),
    readAll (fun a => st.cells[a]?) as = some ds →
    (filterMeaningfulH n st as).2 = some r →
    readAll (fun b => ((filterMeaningfulH n st as).1).cells[b]?) r =
      filterMeaningfulD n ds := by
  intro as
  induction as with
  | nil =>
    intro st ds r hds hr
    simp only [readAll, Option.some.injEq] at hds
    subst hds
    simp only [filterMeaningfulH, Option.some.injEq] at hr
    subst hr
    rfl
  | cons a as ih =>
    intro st ds r hds hr
    cases hc : st.cells[a]? with
    | none =>
      rw [readAll, hc] at hds
      cases hds
    | some c =>
      simp only [readAll, hc, Option.map_eq_some'] at hds
      obtain ⟨ds1, hds1, hds2⟩ := hds
      subst hds2
      cases hmsg : getMessage c with
      | none => rw [filterH_cons_nomsg n st a as c hc hmsg] at hr; cases hr
      | some m =>
        by_cases hskip : (cleanCommitMessage m).length < n ∨
            ciHasPre mergeWord (cleanCommitMessage m) = true ∨
            ciHasPre revertWord (cleanCommitMessage m) = true
        · rw [filterH_cons_skip n st a as c m hc hmsg hskip] at hr ⊢
          rw [ih st ds1 r hds1 hr, filterD_cons_skip n c ds1 m hmsg hskip]
        · rw [filterH_cons_keep n st a as c m hc hmsg hskip] at hr ⊢
          simp only [Option.map_eq_some'] at hr
          obtain ⟨r1, hr1, hr2⟩ := hr
          subst hr2
          rw [filterD_cons_keep n c ds1 m hmsg hskip]
          set st1 : Store :=
            ⟨st.cells ++ [augmentDict c (cleanCommitMessage m)]⟩ with hst1
          have hlt : ∀ x ∈ as, st.cells[x]? = st1.cells[x]? := by
            intro x hx
            cases hdx : st.cells[x]? with
            | none =>
              exfalso
              have hnone : readAll (fun a => st.cells[a]?) as = none :=
                readAll_none_of_mem _ as x hx hdx
              rw [hnone] at hds1
              cases hds1
            | some dx =>
              have hxlt : x < st.cells.length :=
                (List.getElem?_eq_some_iff.mp hdx).1
              show some dx =
                (st.cells ++ [augmentDict c (cleanCommitMessage m)])[x]?
              rw [List.getElem?_append_left hxlt]
              exact hdx.symm
          have hrest1 : readAll (fun x => st1.cells[x]?) as = some ds1 := by
            rw [← readAll_congr _ _ as hlt]
            exact hds1
          have haddr :
              ((filterMeaningfulH n st1 as).1).cells[st.cells.length]? =
              some (augmentDict c (cleanCommitMessage m)) := by
            have hlen : st.cells.length < st1.cells.length := by
              simp [hst1]
            rw [filterH_frame n as st1 _ hlen, hst1]
            exact List.getElem?_concat_length _ _
          simp only [readAll, haddr]
          rw [ih st1 ds1 r1 hrest1 hr1]

/-- C10 (corrected) counterexample: an input commit that already carries a
`cleaned_message` entry has that pair overwritten in the returned dict, so
not every input key-value pair is preserved unchanged. -/
theorem c10_overwrites_cleaned_message :
    filterMeaningfulD 5
      [[("message", PyVal.vStr "Fix real issue".toList),
        ("cleaned_message", PyVal.vStr "bogus".toList)]] =
      some [[("message", PyVal.vStr "Fix real issue".toList),
        ("cleaned_message", PyVal.vStr "Fix real issue".toList)]] ∧
    PyVal.vStr ("Fix real issue".toList) ≠ PyVal.vStr ("bogus".toList) :=
  ⟨by decide, by decide⟩

/-- C10 (amended): the heap-level `filter_meaningful_commits` never writes
an existing cell (the input dicts, hence the input list's elements, are
unchanged by the call); the returned addresses are fresh allocations; the
dicts at the returned addresses are exactly the pure `filterMeaningfulD`
results; and each augmented dict maps `cleaned_message` to the cleaned
message while agreeing with its input commit on every other key. -/
theorem c10_no_input_mutation :
    (∀ (n : Nat) (as : List Nat) (st : Store) (a : Nat), a < st.cells.length →
      ((filterMeaningfulH n st as).1).cells[a]? = st.cells[a]?) ∧
    (∀ (n : Nat) (as : List Nat) (st : Store) (r : List Nat),
      (filterMeaningfulH n st as).2 = some r → ∀ b ∈ r, st.cells.length ≤ b) ∧
    (∀ (n : Nat) (as : List Nat) (st : Store) (ds : List PyDict) (r : List Nat),
      readAll (fun a => st.cells[a]?) as = some ds →
      (filterMeaningfulH n st as).2 = some r →
      readAll (fun b => ((filterMeaningfulH n st as).1).cells[b]?) r =
        filterMeaningfulD n ds) ∧
    (∀ (c : PyDict) (cl : List Char),
      (augmentDict c cl).lookup "cleaned_message" = some (PyVal.vStr cl)) ∧
    (∀ (c : PyDict) (cl : List Char) (k : String), k ≠ "cleaned_message" →
      (augmentDict c cl).lookup k = c.lookup k) :=
  ⟨fun n as st a ha => filterH_frame n as st a ha,
   fun n as st r hr => filterH_fresh n as st r hr,
   fun n as st ds r hds hr => filterH_content n as st ds r hds hr,
   fun c cl => lookup_setKey_self _ (PyVal.vStr cl) c,
   fun c cl k hk => lookup_setKey_other _ k (PyVal.vStr cl) hk c⟩

/-- Witness for C10 on a one-dict store. -/
theorem c10_no_input_mutation_witness :
    ((filterMeaningfulH 5 ⟨[[("message", PyVal.vStr "Fix real issue".toList)]]⟩
        [0]).1).cells[0]? =
      (Store.mk [[("message", PyVal.vStr "Fix real issue".toList)]]).cells[0]? ∧
    (augmentDict [("message", PyVal.vStr "Fix real issue".toList)]
        ("ok".toList)).lookup "message" =
      some (PyVal.vStr "Fix real issue".toList) := by
  constructor
  · exact c10_no_input_mutation.1 5 [0]
      ⟨[[("message", PyVal.vStr "Fix real issue".toList)]]⟩ 0 (by decide)
  · rw [c10_no_input_mutation.2.2.2.2
      [("message", PyVal.vStr "Fix real issue".toList)] ("ok".toList)
      "message" (by decide)]
    decide

/-! ## Aggregator: totality (no KeyError) and the per-language gather -/

theorem mock_label_cases (m : List Char) :
    (mockSentiment m).label = "POSITIVE" ∨ (mockSentiment m).label = "NEUTRAL" ∨
    (mockSentiment m).label = "NEGATIVE" := by
  by_cases h1 : positiveWords.countP (fun w => containsSub w (m.map Char.toLower)) >
      negativeWords.countP (fun w => containsSub w (m.map Char.toLower))
  · left
    simp [mockSentiment, h1]
  · by_cases h2 : negativeWords.countP (fun w => containsSub w (m.map Char.toLower)) >
        positiveWords.countP (fun w => containsSub w (m.map Char.toLower))
    · right; right
      simp [mockSentiment, h1, h2]
    · right; left
      simp [mockSentiment, h1, h2]

theorem incrCounts_mock (c : Counts) (m : List Char) :
    incrCounts c ((mockSentiment m).label) =
      some (incrCountsT c ((mockSentiment m).label)) := by
  rcases mock_label_cases m with h | h | h <;>
    simp [incrCounts, incrCountsT, h]

theorem foldCommit_analyze (rn : String) (s : RawStats) (c : CommitIn) :
    foldCommit rn s (analyzeCommit c) = some (foldCommitT rn s (analyzeCommit c)) := by
  simp only [foldCommit, foldCommitT, analyzeCommit]
  rw [incrCounts_mock]

theorem foldCommits_analyze (rn : String) :
    ∀ (cs : List CommitIn) (s : RawStats),
    foldCommits rn s (cs.map analyzeCommit) =
      some (foldCommitsT rn s (cs.map analyzeCommit)) := by
  intro cs
  induction cs with
  | nil => intro s; rfl
  | cons c cs ih =>
    intro s
    simp only [List.map_cons, foldCommits, foldCommitsT]
    rw [foldCommit_analyze]
    exact ih _

theorem addRepo_total (s : RawStats) (r : Repo) :
    addRepo s r = some (addRepoT s r) := by
  simp only [addRepo, addRepoT]
  exact foldCommits_analyze _ _ _

theorem updateAssoc_total (k : String) (f : RawStats → Option RawStats)
    (fT : RawStats → RawStats) (hf : ∀ s, f s = some (fT s)) :
    ∀ acc, updateAssoc k f acc = some (updateAssocT k fT acc) := by
  intro acc
  induction acc with
  | nil => simp [updateAssoc, updateAssocT, hf]
  | cons p rest ih =>
    obtain ⟨k0, s0⟩ := p
    by_cases h : k0 = k
    · simp [updateAssoc, updateAssocT, h, hf]
    · simp [updateAssoc, updateAssocT, h, ih]

theorem processRepos_total :
    ∀ (repos : List Repo) (acc : List (String × RawStats)),
    processRepos acc repos = some (processReposT acc repos) := by
  intro repos
  induction repos with
  | nil => intro acc; rfl
  | cons r rs ih =>
    intro acc
    simp only [processRepos, processReposT]
    by_cases hv : validRepo r = true
    · rw [if_pos hv, if_pos hv,
        updateAssoc_total (langOf r) _ (fun s => addRepoT s r)
          (fun s => addRepo_total s r) acc]
      exact ih _
    · rw [if_neg hv, if_neg hv]
      exact ih _

/-- The program-level aggregation never raises: the mock labels always hit
one of the three sentiment keys. -/
theorem aggregateByLanguage_total (repos : List Repo) :
    aggregateByLanguage repos = some (aggregateByLanguageT repos) := by
  simp only [aggregateByLanguage, aggregateByLanguageT,
    processRepos_total repos []]
  rfl

theorem lookup_updateAssocT (k L : String) (f : RawStats → RawStats) :
    ∀ acc : List (String × RawStats),
    (updateAssocT k f acc).lookup L =
      if k = L then some (f ((acc.lookup L).getD initRaw)) else acc.lookup L := by
  intro acc
  induction acc with
  | nil =>
    by_cases h : k = L
    · subst h
      simp [updateAssocT, List.lookup]
    · have hbe : (L == k) = false :=
        beq_eq_false_iff_ne.mpr (fun hh => h hh.symm)
      simp [updateAssocT, List.lookup, hbe, h]
  | cons p rest ih =>
    obtain ⟨k0, s0⟩ := p
    by_cases h : k0 = k
    · subst h
      by_cases hL : k0 = L
      · subst hL
        simp [updateAssocT, List.lookup]
      · have hbe : (L == k0) = false :=
          beq_eq_false_iff_ne.mpr (fun hh => hL hh.symm)
        simp [updateAssocT, List.lookup, hbe, hL]
    · by_cases hL : k0 = L
      · subst hL
        have hkL : ¬ k = k0 := fun hh => h hh.symm
        simp [updateAssocT, h, List.lookup, hkL]
      · have hbe : (L == k0) = false :=
          beq_eq_false_iff_ne.mpr (fun hh => hL hh.symm)
        simp [updateAssocT, h, List.lookup, hbe, ih]

theorem lookup_processReposT (L : String) :
    ∀ (repos : List Repo) (acc : List (String × RawStats)),
    (processReposT acc repos).lookup L = gFold L (acc.lookup L) repos := by
  intro repos
  induction repos with
  | nil => intro acc; rfl
  | cons r rs ih =>
    intro acc
    simp only [processReposT, gFold]
    by_cases hv : validRepo r = true
    · rw [if_pos hv, ih]
      by_cases hL : langOf r = L
      · rw [if_pos ⟨hv, hL⟩, lookup_updateAssocT, if_pos hL]
      · rw [if_neg (fun hh => hL hh.2), lookup_updateAssocT, if_neg hL]
    · rw [if_neg hv, ih, if_neg (fun hh => hv hh.1)]

theorem gFold_some (L : String) :
    ∀ (rs : List Repo) (s : RawStats),
    gFold L (some s) rs = some ((validWithLang rs L).foldl addRepoT s) := by
  intro rs
  induction rs with
  | nil => intro s; rfl
  | cons r rs ih =>
    intro s
    simp only [gFold, validWithLang, List.filter_cons]
    by_cases hv : validRepo r = true ∧ langOf r = L
    · rw [if_pos hv]
      have : (validRepo r && decide (langOf r = L)) = true := by
        simp [hv.1, hv.2]
      rw [this]
      simp only [Option.getD_some, List.foldl_cons]
      exact ih (addRepoT s r)
    · rw [if_neg hv]
      have hb : (validRepo r && decide (langOf r = L)) = false := by
        rcases not_and_or.mp hv with h | h
        · have hb0 : validRepo r = false := by
            cases hvr : validRepo r
            · rfl
            · exact absurd hvr h
          simp [hb0]
        · simp [h]
      rw [hb]
      exact ih s

theorem gFold_none (L : String) :
    ∀ rs : List Repo,
    gFold L none rs =
      if validWithLang rs L = [] then none
      else some ((validWithLang rs L).foldl addRepoT initRaw) := by
  intro rs
  induction rs with
  | nil => rfl
  | cons r rs ih =>
    simp only [gFold, validWithLang, List.filter_cons]
    by_cases hv : validRepo r = true ∧ langOf r = L
    · rw [if_pos hv]
      have hb : (validRepo r && decide (langOf r = L)) = true := by
        simp [hv.1, hv.2]
      rw [hb]
      simp only [Option.getD_none]
      rw [gFold_some]
      simp [validWithLang]
    · rw [if_neg hv]
      have hb : (validRepo r && decide (langOf r = L)) = false := by
        rcases not_and_or.mp hv with h | h
        · have hb0 : validRepo r = false := by
            cases hvr : validRepo r
            · rfl
            · exact absurd hvr h
          simp [hb0]
        · simp [h]
      rw [hb]
      exact ih

/-- The raw bucket of language `L` is the fold of exactly the valid
repositories of that language. -/
theorem bucket_raw (repos : List Repo) (L : String) :
    (processReposT [] repos).lookup L =
      if validWithLang repos L = [] then none
      else some ((validWithLang repos L).foldl addRepoT initRaw) := by
  rw [lookup_processReposT L repos []]
  exact gFold_none L repos

theorem lookup_map_finalize (L : String) :
    ∀ l : List (String × RawStats),
    (l.map (fun p => (p.1, finalizeStats p.2))).lookup L =
      (l.lookup L).map finalizeStats := by
  intro l
  induction l with
  | nil => rfl
  | cons p rest ih =>
    obtain ⟨k0, s0⟩ := p
    by_cases h : k0 = L
    · subst h
      simp [List.lookup]
    · have hbe : (L == k0) = false :=
        beq_eq_false_iff_ne.mpr (fun hh => h hh.symm)
      simp [List.lookup, hbe, ih]

/-! ## Aggregator: what one bucket accumulates -/

theorem foldCommitT_top_pos (rn : String) (s : RawStats) (c : CommitIn) :
    (foldCommitT rn s (analyzeCommit c)).top_pos =
      s.top_pos ++ (posEntryOf rn c).toList := by
  simp only [foldCommitT, analyzeCommit, posEntryOf, entryOfCommit]
  split_ifs <;> simp

theorem foldCommitT_top_neg (rn : String) (s : RawStats) (c : CommitIn) :
    (foldCommitT rn s (analyzeCommit c)).top_neg =
      s.top_neg ++ (negEntryOf rn c).toList := by
  simp only [foldCommitT, analyzeCommit, negEntryOf, entryOfCommit]
  split_ifs <;> simp

theorem foldCommitT_counts (rn : String) (s : RawStats) (c : CommitIn) :
    (foldCommitT rn s (analyzeCommit c)).counts =
      incrCountsT s.counts (mockSentiment c.message).label := rfl

theorem foldCommitT_confs (rn : String) (s : RawStats) (c : CommitIn) :
    (foldCommitT rn s (analyzeCommit c)).confs =
      s.confs ++ [(mockSentiment c.message).conf] := rfl

theorem foldCommitT_total_repos (rn : String) (s : RawStats) (c : CommitIn) :
    (foldCommitT rn s (analyzeCommit c)).total_repos = s.total_repos := rfl

theorem foldCommitT_total_commits (rn : String) (s : RawStats) (c : CommitIn) :
    (foldCommitT rn s (analyzeCommit c)).total_commits = s.total_commits := rfl

theorem foldCommitT_repositories (rn : String) (s : RawStats) (c : CommitIn) :
    (foldCommitT rn s (analyzeCommit c)).repositories = s.repositories := rfl

theorem sumCounts_incr_mock (cnt : Counts) (m : List Char) :
    sumCounts (incrCountsT cnt (mockSentiment m).label) = sumCounts cnt + 1 := by
  rcases mock_label_cases m with h | h | h <;>
    · simp [incrCountsT, h, sumCounts]
      omega

theorem foldCommitsT_fields (rn : String) :
    ∀ (cs : List CommitIn) (s : RawStats),
    (foldCommitsT rn s (cs.map analyzeCommit)).top_pos =
      s.top_pos ++ cs.filterMap (posEntryOf rn) ∧
    (foldCommitsT rn s (cs.map analyzeCommit)).top_neg =
      s.top_neg ++ cs.filterMap (negEntryOf rn) ∧
    sumCounts (foldCommitsT rn s (cs.map analyzeCommit)).counts =
      sumCounts s.counts + cs.length ∧
    (foldCommitsT rn s (cs.map analyzeCommit)).confs.length =
      s.confs.length + cs.length ∧
    (foldCommitsT rn s (cs.map analyzeCommit)).total_repos = s.total_repos ∧
    (foldCommitsT rn s (cs.map analyzeCommit)).total_commits = s.total_commits ∧
    (foldCommitsT rn s (cs.map analyzeCommit)).repositories = s.repositories := by
  intro cs
  induction cs with
  | nil =>
    intro s
    simp [foldCommitsT]
  | cons c cs ih =>
    intro s
    simp only [List.map_cons, foldCommitsT]
    obtain ⟨ih1, ih2, ih3, ih4, ih5, ih6, ih7⟩ :=
      ih (foldCommitT rn s (analyzeCommit c))
    refine ⟨?_, ?_, ?_, ?_, ?_, ?_, ?_⟩
    · rw [ih1, foldCommitT_top_pos]
      cases hpe : posEntryOf rn c <;> simp [List.filterMap_cons, hpe]
    · rw [ih2, foldCommitT_top_neg]
      cases hne : negEntryOf rn c <;> simp [List.filterMap_cons, hne]
    · rw [ih3, foldCommitT_counts, sumCounts_incr_mock]
      simp only [List.length_cons]
      omega
    · rw [ih4, foldCommitT_confs]
      simp only [List.length_append, List.length_cons, List.length_nil]
      omega
    · rw [ih5, foldCommitT_total_repos]
    · rw [ih6, foldCommitT_total_commits]
    · rw [ih7, foldCommitT_repositories]

theorem addRepoT_fields (s : RawStats) (r : Repo) :
    (addRepoT s r).top_pos =
      s.top_pos ++ r.commits.filterMap (posEntryOf r.full_name) ∧
    (addRepoT s r).top_neg =
      s.top_neg ++ r.commits.filterMap (negEntryOf r.full_name) ∧
    sumCounts (addRepoT s r).counts = sumCounts s.counts + r.commits.length ∧
    (addRepoT s r).confs.length = s.confs.length + r.commits.length ∧
    (addRepoT s r).total_commits = s.total_commits + r.commits.length ∧
    (addRepoT s r).total_repos = s.total_repos + 1 := by
  obtain ⟨h1, h2, h3, h4, h5, h6, h7⟩ :=
    foldCommitsT_fields r.full_name r.commits
      { s with
        total_repos := s.total_repos + 1
        total_commits := s.total_commits + r.commits.length
        repositories := s.repositories ++
          [⟨r.full_name, r.stars, r.commits.length⟩] }
  exact ⟨h1, h2, h3, h4, h6, h5⟩

theorem foldl_addRepoT_fields :
    ∀ (rs : List Repo) (s : RawStats),
    (rs.foldl addRepoT s).top_pos =
      s.top_pos ++ rs.flatMap (fun r => r.commits.filterMap (posEntryOf r.full_name)) ∧
    (rs.foldl addRepoT s).top_neg =
      s.top_neg ++ rs.flatMap (fun r => r.commits.filterMap (negEntryOf r.full_name)) ∧
    sumCounts (rs.foldl addRepoT s).counts =
      sumCounts s.counts + (rs.map (fun r => r.commits.length)).sum ∧
    (rs.foldl addRepoT s).confs.length =
      s.confs.length + (rs.map (fun r => r.commits.length)).sum ∧
    (rs.foldl addRepoT s).total_commits =
      s.total_commits + (rs.map (fun r => r.commits.length)).sum := by
  intro rs
  induction rs with
  | nil =>
    intro s
    simp
  | cons r rs ih =>
    intro s
    simp only [List.foldl_cons, List.flatMap_cons, List.map_cons, List.sum_cons]
    obtain ⟨ih1, ih2, ih3, ih4, ih5⟩ := ih (addRepoT s r)
    obtain ⟨a1, a2, a3, a4, a5, a6⟩ := addRepoT_fields s r
    refine ⟨?_, ?_, ?_, ?_, ?_⟩
    · rw [ih1, a1, List.append_assoc]
    · rw [ih2, a2, List.append_assoc]
    · rw [ih3, a3]
      omega
    · rw [ih4, a4]
      omega
    · rw [ih5, a5]
      omega

/-- Projection equations of the finalization pass. -/
theorem finalize_top_pos (s : RawStats) :
    (finalizeStats s).top_pos = (sortDesc s.top_pos).take 10 := rfl

theorem finalize_top_neg (s : RawStats) :
    (finalizeStats s).top_neg = (sortDesc s.top_neg).take 10 := rfl

theorem finalize_counts (s : RawStats) :
    (finalizeStats s).counts = s.counts := rfl

theorem finalize_confs (s : RawStats) :
    (finalizeStats s).confs = s.confs := rfl

theorem finalize_total_commits (s : RawStats) :
    (finalizeStats s).total_commits = s.total_commits := rfl

/-- The finalized bucket of language `L`, fully characterized in terms of
the contributing repositories. -/
theorem bucket_fields (repos : List Repo) (L : String) (st : LangStats)
    (h : (aggregateByLanguageT repos).lookup L = some st) :
    st.top_pos = (sortDesc (posFoldEntries repos L)).take 10 ∧
    st.top_neg = (sortDesc (negFoldEntries repos L)).take 10 ∧
    sumCounts st.counts = st.total_commits ∧
    st.confs.length = st.total_commits ∧
    st.total_commits = commitsCountOf repos L := by
  rw [aggregateByLanguageT, lookup_map_finalize, bucket_raw] at h
  by_cases hv : validWithLang repos L = []
  · rw [if_pos hv] at h
    simp at h
  · rw [if_neg hv] at h
    simp only [Option.map_some', Option.some.injEq] at h
    obtain ⟨f1, f2, f3, f4, f5⟩ :=
      foldl_addRepoT_fields (validWithLang repos L) initRaw
    subst h
    refine ⟨?_, ?_, ?_, ?_, ?_⟩
    · rw [finalize_top_pos, f1]
      simp [initRaw, posFoldEntries]
    · rw [finalize_top_neg, f2]
      simp [initRaw, negFoldEntries]
    · rw [finalize_counts, finalize_total_commits, f3, f5]
      simp [initRaw, sumCounts]
    · rw [finalize_confs, finalize_total_commits, f4, f5]
      simp [initRaw]
    · rw [finalize_total_commits, f5]
      simp [initRaw, commitsCountOf]

/-! ## Aggregation ignores incoming sentiment labels -/

theorem validRepo_setRepoSent (f : CommitIn → Option SentLabel) (r : Repo) :
    validRepo (setRepoSent f r) = validRepo r := by
  simp only [setRepoSent, validRepo]
  congr 1
  exact decide_eq_decide.mpr (by simp)

theorem langOf_setRepoSent (f : CommitIn → Option SentLabel) (r : Repo) :
    langOf (setRepoSent f r) = langOf r := rfl

theorem addRepoT_setRepoSent (s : RawStats) (f : CommitIn → Option SentLabel)
    (r : Repo) : addRepoT s (setRepoSent f r) = addRepoT s r := by
  simp only [setRepoSent, addRepoT, List.length_map, List.map_map]
  have h : (analyzeCommit ∘ fun c => { c with sentiment := f c }) = analyzeCommit :=
    funext (fun _ => rfl)
  rw [h]

theorem processReposT_set (f : CommitIn → Option SentLabel) :
    ∀ (repos : List Repo) (acc : List (String × RawStats)),
    processReposT acc (setSentiments f repos) = processReposT acc repos := by
  intro repos
  induction repos with
  | nil => intro acc; rfl
  | cons r rs ih =>
    intro acc
    show processReposT acc (setRepoSent f r :: setSentiments f rs) = _
    simp only [processReposT, validRepo_setRepoSent, langOf_setRepoSent,
      addRepoT_setRepoSent, ih]

/-! ## Claim C1: commits with an ERROR sentiment label -/

/-- C1: counterexample.  A repository whose single commit arrives with the
label `ERROR` (confidence 0) ends up with NEUTRAL count 1 — the aggregator
re-labels every commit with its mock keyword analysis, so the ERROR commit
does increment one of the POSITIVE/NEUTRAL/NEGATIVE counts, contrary to the
claim that it increments none. -/
theorem c1_error_label_cex :
    (aggregateByLanguage [wRepoErr]).map
      (fun out => out.map (fun p => (p.1, p.2.counts))) =
      some [("Python", ⟨0, 1, 0⟩)] ∧
    (Counts.mk 0 1 0).neut ≠ 0 :=
  ⟨by with_unfolding_all rfl, by decide⟩

/-- C1 (amended): aggregation never raises (it returns the total variant);
the incoming sentiment labels — ERROR included — are discarded, since
rewriting them arbitrarily does not change the result; and every bucket's
three sentiment counts sum exactly to its commit total, so each commit
(also an ERROR-labelled one) contributes to the total and to exactly one of
the three counts. -/
theorem c1_error_label_discarded :
    (∀ repos : List Repo,
      aggregateByLanguage repos = some (aggregateByLanguageT repos)) ∧
    (∀ (repos : List Repo) (f : CommitIn → Option SentLabel),
      aggregateByLanguageT (setSentiments f repos) = aggregateByLanguageT repos) ∧
    (∀ (repos : List Repo) (L : String) (st : LangStats),
      (aggregateByLanguageT repos).lookup L = some st →
      sumCounts st.counts = st.total_commits) := by
  refine ⟨aggregateByLanguage_total, ?_, ?_⟩
  · intro repos f
    simp only [aggregateByLanguageT]
    rw [processReposT_set]
  · intro repos L st h
    exact (bucket_fields repos L st h).2.2.1

/-- Witness for C1 at the ERROR-labelled repository. -/
theorem c1_error_label_discarded_witness :
    sumCounts (((aggregateByLanguageT [wRepoErr]).lookup "Python").getD
      (finalizeStats initRaw)).counts =
    (((aggregateByLanguageT [wRepoErr]).lookup "Python").getD
      (finalizeStats initRaw)).total_commits :=
  c1_error_label_discarded.2.2 [wRepoErr] "Python" _ (by with_unfolding_all rfl)

/-! ## Claim C4: commits without a sentiment label -/

/-- C4: counterexample.  A repository whose single commit carries no
sentiment label at all still gets counted (NEUTRAL count 1, one confidence
score) because `_analyze_commits_sentiment` first assigns every commit a
mock label — contrary to the claim that such a commit is skipped. -/
theorem c4_unlabeled_commit_counted_cex :
    (aggregateByLanguage [wRepoNoSent]).map
      (fun out => out.map (fun p => (p.1, p.2.counts, p.2.confs.length))) =
      some [("Python", ⟨0, 1, 0⟩, 1)] ∧
    (Counts.mk 0 1 0) ≠ ⟨0, 0, 0⟩ :=
  ⟨by with_unfolding_all rfl, by decide⟩

/-- C4 (amended): the `'sentiment' in commit` guard always passes because
the mock pre-pass labels every commit, so every commit of every aggregated
repository is counted into `sentiment_counts` and `confidence_scores`: the
three counts sum to the commit total, the confidence list has exactly one
entry per commit, and the total is the whole commit count of the bucket's
repositories — nothing is skipped and nothing arrives unlabelled at the
counting step. -/
theorem c4_every_commit_counted :
    ∀ (repos : List Repo) (L : String) (st : LangStats),
      (aggregateByLanguageT repos).lookup L = some st →
      sumCounts st.counts = st.total_commits ∧
      st.confs.length = st.total_commits ∧
      st.total_commits = commitsCountOf repos L := by
  intro repos L st h
  obtain ⟨_, _, h3, h4, h5⟩ := bucket_fields repos L st h
  exact ⟨h3, h4, h5⟩

/-- Witness for C4 at the unlabelled-commit repository. -/
theorem c4_every_commit_counted_witness :
    sumCounts (((aggregateByLanguageT [wRepoNoSent]).lookup "Python").getD
      (finalizeStats initRaw)).counts =
    (((aggregateByLanguageT [wRepoNoSent]).lookup "Python").getD
      (finalizeStats initRaw)).total_commits ∧
    (((aggregateByLanguageT [wRepoNoSent]).lookup "Python").getD
      (finalizeStats initRaw)).confs.length =
    (((aggregateByLanguageT [wRepoNoSent]).lookup "Python").getD
      (finalizeStats initRaw)).total_commits ∧
    (((aggregateByLanguageT [wRepoNoSent]).lookup "Python").getD
      (finalizeStats initRaw)).total_commits =
      commitsCountOf [wRepoNoSent] "Python" :=
  c4_every_commit_counted [wRepoNoSent] "Python" _ (by with_unfolding_all rfl)

/-! ## Claim C7: top positive/negative commits -/

/-- C7: counterexample.  A bucket containing one POSITIVE commit of mock
confidence exactly 0.8 has empty `top_positive_commits` (the fold only
keeps entries with confidence strictly above 0.8), while the claim — the
at-most-10 highest-confidence POSITIVE commits — would require that commit
to appear. -/
theorem c7_top_positive_threshold_cex :
    (aggregateByLanguageT [wRepoFix]).map (fun p => (p.1, p.2.top_pos)) =
      [("Python", [])] ∧
    claimedTopPositive [wRepoFix] "Python" =
      [⟨"octo/beta", "fix".toList, (mockSentiment ("fix".toList)).conf⟩] ∧
    ([] : List TopEntry) ≠
      [⟨"octo/beta", "fix".toList, (mockSentiment ("fix".toList)).conf⟩] :=
  ⟨by with_unfolding_all rfl, by with_unfolding_all rfl, by simp⟩

/-- C7 (amended): for every language bucket, `top_positive_commits`
(symmetrically `top_negative_commits`) is exactly the at-most-10
highest-confidence commits of the bucket whose mock label is POSITIVE
(resp. NEGATIVE) *and whose confidence is strictly greater than 0.8*,
sorted descending by confidence with ties broken by original order (stable
insertion sort). -/
theorem c7_top_commits_threshold :
    ∀ (repos : List Repo) (L : String) (st : LangStats),
      (aggregateByLanguageT repos).lookup L = some st →
      st.top_pos = (sortDesc (posFoldEntries repos L)).take 10 ∧
      st.top_neg = (sortDesc (negFoldEntries repos L)).take 10 := by
  intro repos L st h
  obtain ⟨h1, h2, _, _, _⟩ := bucket_fields repos L st h
  exact ⟨h1, h2⟩

/-- Witness for C7 at a repository with one NEGATIVE commit of confidence
0.9. -/
theorem c7_top_commits_threshold_witness :
    (((aggregateByLanguageT [wRepoBug]).lookup "Python").getD
      (finalizeStats initRaw)).top_pos =
      (sortDesc (posFoldEntries [wRepoBug] "Python")).take 10 ∧
    (((aggregateByLanguageT [wRepoBug]).lookup "Python").getD
      (finalizeStats initRaw)).top_neg =
      (sortDesc (negFoldEntries [wRepoBug] "Python")).take 10 :=
  c7_top_commits_threshold [wRepoBug] "Python" _ (by with_unfolding_all rfl)

/-! ## Claim C5: clean_commit_message — list utilities -/

theorem head_dropWhile_false (p : Char → Bool) (l : List Char) (c : Char)
    (h : (l.dropWhile p).head? = some c) : p c = false := by
  have := List.head?_dropWhile_not p l
  rw [h] at this
  exact this

theorem length_dropWhile_le (p : Char → Bool) (l : List Char) :
    (l.dropWhile p).length ≤ l.length :=
  (List.dropWhile_suffix p).sublist.length_le

theorem takeWhile_nil_of_head (p : Char → Bool) (l : List Char)
    (h : ∀ c, l.head? = some c → p c = false) : l.takeWhile p = [] := by
  cases l with
  | nil => rfl
  | cons c cs => simp [List.takeWhile_cons, h c rfl]

theorem head_of_pre (l1 l2 : List Char) (c : Char) (h : l1 <+: l2)
    (hc : l1.head? = some c) : l2.head? = some c := by
  obtain ⟨t, ht⟩ := h
  subst ht
  cases l1 with
  | nil => simp at hc
  | cons a as => simpa using hc

theorem dropEndWhile_pre (p : Char → Bool) (l : List Char) :
    dropEndWhile p l <+: l := by
  rw [dropEndWhile]
  obtain ⟨t, ht⟩ := List.dropWhile_suffix (l := l.reverse) p
  refine ⟨t.reverse, ?_⟩
  rw [← List.reverse_append, ht, List.reverse_reverse]

theorem takeWhile_prefix_mono (p : Char → Bool) :
    ∀ (l2 l : List Char), l2 <+: l → l2.takeWhile p <+: l.takeWhile p := by
  intro l2
  induction l2 with
  | nil => intro l _; exact List.nil_prefix
  | cons c cs ih =>
    intro l h
    cases l with
    | nil => exact absurd (List.prefix_nil.mp h) (by simp)
    | cons d ds =>
      obtain ⟨rfl, hcs⟩ := List.cons_prefix_cons.mp h
      by_cases hp : p c = true
      · simp only [List.takeWhile_cons, hp, if_true]
        exact List.cons_prefix_cons.mpr ⟨rfl, ih ds hcs⟩
      · simp only [List.takeWhile_cons, hp]
        exact List.nil_prefix

/-! ## Claim C5: the issue-reference pass leaves no `#digit` -/

theorem subIRf_head_not_digit :
    ∀ (n : Nat) (l : List Char), l.length ≤ n →
    (∀ c, l.head? = some c → c.isDigit = false) →
    ∀ c, (subIRf n l).head? = some c → c.isDigit = false := by
  intro n
  induction n with
  | zero =>
    intro l hl _ c hc
    rw [List.length_eq_zero.mp (Nat.le_zero.mp hl)] at hc
    simp [subIRf] at hc
  | succ n ih =>
    intro l hl hh c hc
    cases l with
    | nil => simp [subIRf] at hc
    | cons a as =>
      simp only [subIRf] at hc
      by_cases hcond : a = '#' ∧ as.takeWhile Char.isDigit ≠ []
      · rw [if_pos hcond] at hc
        refine ih _ ?_ ?_ c hc
        · exact le_trans (length_dropWhile_le _ _)
            (Nat.le_of_succ_le_succ (by simpa using hl))
        · intro d hd
          exact head_dropWhile_false Char.isDigit as d hd
      · rw [if_neg hcond] at hc
        simp only [List.head?_cons, Option.some.injEq] at hc
        subst hc
        exact hh _ rfl

theorem subIRf_noHashDigit :
    ∀ (n : Nat) (l : List Char), l.length ≤ n → noHashDigit (subIRf n l) := by
  intro n
  induction n with
  | zero =>
    intro l hl
    rw [List.length_eq_zero.mp (Nat.le_zero.mp hl)]
    simp [subIRf, noHashDigit]
  | succ n ih =>
    intro l hl
    cases l with
    | nil => simp [subIRf, noHashDigit]
    | cons a as =>
      have has : as.length ≤ n := Nat.le_of_succ_le_succ (by simpa using hl)
      simp only [subIRf]
      by_cases hcond : a = '#' ∧ as.takeWhile Char.isDigit ≠ []
      · rw [if_pos hcond]
        exact ih _ (le_trans (length_dropWhile_le _ _) has)
      · rw [if_neg hcond]
        rw [noHashDigit, List.chain'_cons']
        refine ⟨?_, ih as has⟩
        intro y hy
        rintro ⟨ha, hd⟩
        subst ha
        have htw : as.takeWhile Char.isDigit = [] := by
          by_contra hne
          exact hcond ⟨rfl, hne⟩
        have hashead : ∀ c, as.head? = some c → c.isDigit = false := by
          intro c hc
          cases as with
          | nil => simp at hc
          | cons b bs =>
            simp only [List.head?_cons, Option.some.injEq] at hc
            subst hc
            by_cases hb : b.isDigit = true
            · rw [List.takeWhile_cons] at htw
              simp [hb] at htw
            · simp at hb
              exact hb
        have := subIRf_head_not_digit n as has hashead y (Option.mem_def.mp hy)
        rw [this] at hd
        cases hd

theorem subIssueRefs_noHashDigit (l : List Char) :
    noHashDigit (subIssueRefs l) :=
  subIRf_noHashDigit l.length l (Nat.le_refl _)

/-! ## Claim C5: the `fixes #N` pass is the identity afterwards -/

theorem fixesMatch_hashdigit (l r : List Char) (h : fixesMatch l = some r) :
    ¬ noHashDigit l := by
  intro hnh
  simp only [fixesMatch] at h
  by_cases h1 : ciHasPre fixeWord l = true
  · rw [if_pos h1] at h
    set r1 := (match l.drop 4 with
      | c :: rest => if c.toLower = 's' then rest else l.drop 4
      | [] => l.drop 4) with hr1
    have hsuf : r1 <:+ l := by
      have hcases : r1 = l.drop 4 ∨ ∃ c rest, l.drop 4 = c :: rest ∧ r1 = rest := by
        rw [hr1]
        cases hd : l.drop 4 with
        | nil => left; rfl
        | cons c rest =>
          by_cases hs : c.toLower = 's'
          · right
            exact ⟨c, rest, rfl, by simp [hs]⟩
          · left
            simp [hs]
      rcases hcases with hc | ⟨c, rest, hd, hr⟩
      · exact hc ▸ List.drop_suffix 4 l
      · rw [hr]
        have h5 : rest <:+ l.drop 4 := hd ▸ List.suffix_cons c rest
        exact h5.trans (List.drop_suffix 4 l)
    by_cases h2 : r1.takeWhile pyWhite ≠ []
    · rw [if_pos h2] at h
      cases hdw : r1.dropWhile pyWhite with
      | nil => rw [hdw] at h; cases h
      | cons c2 r3 =>
        rw [hdw] at h
        change (if c2 = '#' ∧ r3.takeWhile Char.isDigit ≠ [] then
          some (r3.dropWhile Char.isDigit) else none) = some r at h
        by_cases h3 : c2 = '#' ∧ r3.takeWhile Char.isDigit ≠ []
        · obtain ⟨hc2, hr3⟩ := h3
          subst hc2
          cases hr3' : r3 with
          | nil => rw [hr3'] at hr3; simp at hr3
          | cons d r4 =>
            rw [hr3'] at hr3
            have hd : d.isDigit = true := by
              by_cases hdd : d.isDigit = true
              · exact hdd
              · rw [List.takeWhile_cons] at hr3
                simp at hdd
                simp [hdd] at hr3
            have hsuf2 : '#' :: d :: r4 <:+ l := by
              have hx := List.dropWhile_suffix (l := r1) pyWhite
              rw [hdw, hr3'] at hx
              exact hx.trans hsuf
            have hchain := List.Chain'.suffix hnh hsuf2
            rw [List.chain'_cons] at hchain
            exact hchain.1 ⟨rfl, hd⟩
        · rw [if_neg h3] at h
          cases h
    · rw [if_neg h2] at h
      cases h
  · rw [if_neg h1] at h
    cases h

theorem subFixesF_id :
    ∀ (n : Nat) (l : List Char), noHashDigit l → subFixesF n l = l := by
  intro n
  induction n with
  | zero => intro l _; rfl
  | succ n ih =>
    intro l h
    cases l with
    | nil => rfl
    | cons c cs =>
      simp only [subFixesF]
      cases hm : fixesMatch (c :: cs) with
      | some rest => exact absurd h (fixesMatch_hashdigit _ _ hm)
      | none =>
        rw [ih cs (List.Chain'.tail h)]

theorem subFixes_id (l : List Char) (h : noHashDigit l) : subFixes l = l :=
  subFixesF_id l.length l h

/-! ## Claim C5: the URL pass -/

theorem urlAfterScheme_cases (l rem : List Char) (h : urlAfterScheme l = some rem) :
    rem = l.drop 7 ∨ rem = l.drop 8 := by
  rw [urlAfterScheme] at h
  by_cases h1 : httpWord.isPrefixOf l = true
  · rw [if_pos h1] at h
    injection h with h
    exact Or.inl h.symm
  · rw [if_neg h1] at h
    by_cases h2 : httpsWord.isPrefixOf l = true
    · rw [if_pos h2] at h
      injection h with h
      exact Or.inr h.symm
    · rw [if_neg h2] at h
      cases h

theorem urlMatchAt_some_parts (l r : List Char) (h : urlMatchAt l = some r) :
    r = (l.drop 7).dropWhile urlChar ∨ r = (l.drop 8).dropWhile urlChar := by
  rw [urlMatchAt] at h
  cases hs : urlAfterScheme l with
  | none => rw [hs] at h; cases h
  | some rem =>
    rw [hs] at h
    change (if rem.takeWhile urlChar ≠ [] then
      some (rem.dropWhile urlChar) else none) = some r at h
    by_cases ht : rem.takeWhile urlChar ≠ []
    · rw [if_pos ht] at h
      injection h with h
      rcases urlAfterScheme_cases l rem hs with hr | hr
      · exact Or.inl (h.symm.trans (by rw [hr]))
      · exact Or.inr (h.symm.trans (by rw [hr]))
    · rw [if_neg ht] at h
      cases h

theorem urlMatchAt_some_suffix (l r : List Char) (h : urlMatchAt l = some r) :
    r <:+ l := by
  rcases urlMatchAt_some_parts l r h with hr | hr
  · exact hr ▸ (List.dropWhile_suffix urlChar).trans (List.drop_suffix 7 l)
  · exact hr ▸ (List.dropWhile_suffix urlChar).trans (List.drop_suffix 8 l)

theorem urlMatchAt_some_head (l r : List Char) (h : urlMatchAt l = some r)
    (c : Char) (hc : r.head? = some c) : urlChar c = false := by
  rcases urlMatchAt_some_parts l r h with hr | hr <;>
    exact head_dropWhile_false urlChar _ c (hr ▸ hc)

theorem urlMatchAt_length (c : Char) (cs : List Char) (r : List Char)
    (h : urlMatchAt (c :: cs) = some r) : r.length ≤ cs.length := by
  rcases urlMatchAt_some_parts _ r h with hr | hr <;>
    · subst hr
      refine le_trans (length_dropWhile_le _ _) ?_
      simp only [List.length_drop, List.length_cons]
      omega

/-- The shape of a successful URL match from the other side: the list
starts with a scheme word followed by at least one body character. -/
theorem urlMatchAt_decompose (l : List Char) (h : (urlMatchAt l).isSome = true) :
    ∃ w b t, (w = httpWord ∨ w = httpsWord) ∧ l = w ++ b :: t ∧
      urlChar b = true := by
  rw [urlMatchAt] at h
  cases hs : urlAfterScheme l with
  | none => rw [hs] at h; simp at h
  | some rem =>
    rw [hs] at h
    change (if rem.takeWhile urlChar ≠ [] then
      some (rem.dropWhile urlChar) else none).isSome = true at h
    by_cases ht : rem.takeWhile urlChar ≠ []
    · obtain ⟨b, t, hbt⟩ : ∃ b t, rem = b :: t ∧ urlChar b = true := by
        cases hrem : rem with
        | nil => rw [hrem] at ht; simp at ht
        | cons b t =>
          refine ⟨b, t, rfl, ?_⟩
          by_cases hb : urlChar b = true
          · exact hb
          · rw [hrem, List.takeWhile_cons] at ht
            simp [hb] at ht
      obtain ⟨hbt1, hbt2⟩ := hbt
      rw [urlAfterScheme] at hs
      by_cases h1 : httpWord.isPrefixOf l = true
      · rw [if_pos h1] at hs
        injection hs with hs
        obtain ⟨t0, ht0⟩ := List.isPrefixOf_iff_prefix.mp h1
        have ht0' : t0 = l.drop 7 := by
          rw [← ht0, List.drop_left' (by decide : httpWord.length = 7)]
        refine ⟨httpWord, b, t, Or.inl rfl, ?_, hbt2⟩
        rw [← ht0, ht0', hs, hbt1]
      · rw [if_neg h1] at hs
        by_cases h2 : httpsWord.isPrefixOf l = true
        · rw [if_pos h2] at hs
          injection hs with hs
          obtain ⟨t0, ht0⟩ := List.isPrefixOf_iff_prefix.mp h2
          have ht0' : t0 = l.drop 8 := by
            rw [← ht0, List.drop_left' (by decide : httpsWord.length = 8)]
          refine ⟨httpsWord, b, t, Or.inr rfl, ?_, hbt2⟩
          rw [← ht0, ht0', hs, hbt1]
        · rw [if_neg h2] at hs
          cases hs
    · rw [if_neg ht] at h
      simp at h

theorem httpWord_not_prefixOf_https (x : List Char) :
    httpWord.isPrefixOf (httpsWord ++ x) = false := by
  have e1 : httpWord = 'h' :: 't' :: 't' :: 'p' :: ':' :: '/' :: '/' :: [] := rfl
  have e2 : httpsWord = 'h' :: 't' :: 't' :: 'p' :: 's' :: ':' :: '/' :: '/' :: [] := rfl
  rw [e1, e2]
  simp [List.isPrefixOf, List.cons_append]

/-- Rebuilding a match at a scheme-plus-body-character position. -/
theorem urlMatchAt_isSome_mk (w : List Char) (b : Char) (t : List Char)
    (hw : w = httpWord ∨ w = httpsWord) (hb : urlChar b = true) :
    (urlMatchAt (w ++ b :: t)).isSome = true := by
  rcases hw with rfl | rfl
  · rw [urlMatchAt, urlAfterScheme]
    have hp : httpWord.isPrefixOf (httpWord ++ b :: t) = true :=
      List.isPrefixOf_iff_prefix.mpr ⟨b :: t, rfl⟩
    rw [if_pos hp, List.drop_left' (by decide : httpWord.length = 7)]
    simp [List.takeWhile_cons, hb]
  · rw [urlMatchAt, urlAfterScheme]
    have hp1 : httpWord.isPrefixOf (httpsWord ++ b :: t) = false :=
      httpWord_not_prefixOf_https _
    have hp2 : httpsWord.isPrefixOf (httpsWord ++ b :: t) = true :=
      List.isPrefixOf_iff_prefix.mpr ⟨b :: t, rfl⟩
    rw [hp1]
    simp only [Bool.false_eq_true, if_false]
    rw [if_pos hp2, List.drop_left' (by decide : httpsWord.length = 8)]
    simp [List.takeWhile_cons, hb]

/-- Transfer of a head match along a prefix of url-character runs. -/
theorem urlMatch_transfer (l l2 : List Char)
    (hp : l.takeWhile urlChar <+: l2.takeWhile urlChar)
    (h : (urlMatchAt l).isSome = true) : (urlMatchAt l2).isSome = true := by
  obtain ⟨w, b, t, hw, rfl, hb⟩ := urlMatchAt_decompose l h
  have hall : ∀ x ∈ w, urlChar x = true := by
    rcases hw with rfl | rfl <;> decide
  have htkl : (w ++ b :: t).takeWhile urlChar = w ++ (b :: t).takeWhile urlChar :=
    List.takeWhile_append_of_pos hall
  have hpre : w ++ [b] <+: l2 := by
    have h1 : w ++ [b] <+: (w ++ b :: t).takeWhile urlChar := by
      rw [htkl, List.takeWhile_cons]
      simp only [hb, if_true]
      exact ⟨t.takeWhile urlChar, by simp⟩
    exact (h1.trans hp).trans (List.takeWhile_prefix urlChar)
  obtain ⟨t2, ht2⟩ := hpre
  have hl2 : l2 = w ++ b :: t2 := by
    rw [← ht2]
    simp
  rw [hl2]
  exact urlMatchAt_isSome_mk w b t2 hw hb

theorem digit_urlChar (c : Char) (h : c.isDigit = true) : urlChar c = true := by
  simp [urlChar, h]

theorem subUrlsF_head :
    ∀ (n : Nat) (l : List Char) (y : Char),
    (subUrlsF n l).head? = some y → (l.head? = some y ∨ urlChar y = false) := by
  intro n
  induction n with
  | zero =>
    intro l y hy
    exact Or.inl hy
  | succ n ih =>
    intro l y hy
    cases l with
    | nil => simp [subUrlsF] at hy
    | cons c cs =>
      simp only [subUrlsF] at hy
      cases hm : urlMatchAt (c :: cs) with
      | some rest =>
        rw [hm] at hy
        rcases ih rest y hy with hh | hh
        · exact Or.inr (urlMatchAt_some_head _ _ hm y hh)
        · exact Or.inr hh
      | none =>
        rw [hm] at hy
        simp only [List.head?_cons, Option.some.injEq] at hy
        subst hy
        exact Or.inl rfl

theorem subUrlsF_noHD :
    ∀ (n : Nat) (l : List Char), l.length ≤ n → noHashDigit l →
    noHashDigit (subUrlsF n l) := by
  intro n
  induction n with
  | zero =>
    intro l hl _
    rw [List.length_eq_zero.mp (Nat.le_zero.mp hl)]
    simp [subUrlsF, noHashDigit]
  | succ n ih =>
    intro l hl hnh
    cases l with
    | nil => simp [subUrlsF, noHashDigit]
    | cons c cs =>
      have hcs : cs.length ≤ n := Nat.le_of_succ_le_succ (by simpa using hl)
      simp only [subUrlsF]
      cases hm : urlMatchAt (c :: cs) with
      | some rest =>
        exact ih rest (le_trans (urlMatchAt_length c cs rest hm) hcs)
          (List.Chain'.suffix hnh (urlMatchAt_some_suffix _ _ hm))
      | none =>
        rw [noHashDigit, List.chain'_cons']
        refine ⟨?_, ih cs hcs (List.Chain'.tail hnh)⟩
        intro y hy
        rintro ⟨rfl, hd⟩
        rcases subUrlsF_head n cs y (Option.mem_def.mp hy) with hh | hh
        · rw [noHashDigit, List.chain'_cons'] at hnh
          exact hnh.1 y hh ⟨rfl, hd⟩
        · rw [digit_urlChar y hd] at hh
          cases hh

theorem subUrlsF_takeWhile :
    ∀ (n : Nat) (l : List Char), l.length ≤ n →
    (subUrlsF n l).takeWhile urlChar <+: l.takeWhile urlChar := by
  intro n
  induction n with
  | zero =>
    intro l hl
    rw [List.length_eq_zero.mp (Nat.le_zero.mp hl)]
    exact List.nil_prefix
  | succ n ih =>
    intro l hl
    cases l with
    | nil => exact List.nil_prefix
    | cons c cs =>
      have hcs : cs.length ≤ n := Nat.le_of_succ_le_succ (by simpa using hl)
      simp only [subUrlsF]
      cases hm : urlMatchAt (c :: cs) with
      | some rest =>
        have hrest : (subUrlsF n rest).takeWhile urlChar = [] := by
          have hpre := ih rest (le_trans (urlMatchAt_length c cs rest hm) hcs)
          have hnil : rest.takeWhile urlChar = [] :=
            takeWhile_nil_of_head urlChar rest
              (fun d hd => urlMatchAt_some_head _ _ hm d hd)
          rw [hnil] at hpre
          exact List.prefix_nil.mp hpre
        rw [hrest]
        exact List.nil_prefix
      | none =>
        by_cases hc : urlChar c = true
        · simp only [List.takeWhile_cons, hc, if_true]
          exact List.cons_prefix_cons.mpr ⟨rfl, ih cs hcs⟩
        · simp only [List.takeWhile_cons, hc]
          exact List.nil_prefix

theorem subUrlsF_noToken :
    ∀ (n : Nat) (l : List Char), l.length ≤ n →
    hasUrlToken (subUrlsF n l) = false := by
  intro n
  induction n with
  | zero =>
    intro l hl
    rw [List.length_eq_zero.mp (Nat.le_zero.mp hl)]
    rfl
  | succ n ih =>
    intro l hl
    cases l with
    | nil => rfl
    | cons c cs =>
      have hcs : cs.length ≤ n := Nat.le_of_succ_le_succ (by simpa using hl)
      have heq : subUrlsF (n + 1) (c :: cs) =
          match urlMatchAt (c :: cs) with
          | some rest => subUrlsF n rest
          | none => c :: subUrlsF n cs := rfl
      cases hm : urlMatchAt (c :: cs) with
      | some rest =>
        rw [heq, hm]
        exact ih rest (le_trans (urlMatchAt_length c cs rest hm) hcs)
      | none =>
        rw [heq, hm]
        have htail := ih cs hcs
        rw [hasUrlToken, htail, Bool.or_false]
        by_cases hh : (urlMatchAt (c :: subUrlsF n cs)).isSome = true
        · exfalso
          have hpx : (c :: subUrlsF n cs).takeWhile urlChar <+:
              (c :: cs).takeWhile urlChar := by
            have := subUrlsF_takeWhile (n + 1) (c :: cs) hl
            rw [heq, hm] at this
            exact this
          have := urlMatch_transfer _ _ hpx hh
          rw [hm] at this
          simp at this
        · simp at hh
          simp [hh]

/-! ## Claim C5: the whitespace-collapse and strip passes -/

theorem urlMatchAt_ne_h (c : Char) (x : List Char) (h : c ≠ 'h') :
    urlMatchAt (c :: x) = none := by
  rw [urlMatchAt, urlAfterScheme]
  have e1 : httpWord = 'h' :: "ttp://".toList := rfl
  have e2 : httpsWord = 'h' :: "ttps://".toList := rfl
  have hbe : ('h' == c) = false := beq_eq_false_iff_ne.mpr (fun hh => h hh.symm)
  have h1 : httpWord.isPrefixOf (c :: x) = false := by
    rw [e1]
    simp [List.isPrefixOf, hbe]
  have h2 : httpsWord.isPrefixOf (c :: x) = false := by
    rw [e2]
    simp [List.isPrefixOf, hbe]
  simp [h1, h2]

theorem collapse_ws_step (c : Char) (cs : List Char) (hw : pyWhite c = true) :
    collapseAux true (c :: cs) = collapseAux true cs ∧
    collapseAux false (c :: cs) = ' ' :: collapseAux true cs := by
  constructor <;> simp [collapseAux, hw]

theorem collapse_nws_step (c : Char) (cs : List Char) (b : Bool)
    (hw : pyWhite c = false) :
    collapseAux b (c :: cs) = c :: collapseAux false cs := by
  simp [collapseAux, hw]

theorem collapseAux_takeWhile :
    ∀ l : List Char, (collapseAux false l).takeWhile urlChar <+: l.takeWhile urlChar := by
  intro l
  induction l with
  | nil => exact List.nil_prefix
  | cons c cs ih =>
    by_cases hw : pyWhite c = true
    · rw [(collapse_ws_step c cs hw).2, List.takeWhile_cons,
        if_neg (by decide : ¬ (urlChar ' ' = true))]
      exact List.nil_prefix
    · rw [collapse_nws_step c cs false (Bool.not_eq_true _ ▸ hw)]
      by_cases hc : urlChar c = true
      · simp only [List.takeWhile_cons, hc, if_true]
        exact List.cons_prefix_cons.mpr ⟨rfl, ih⟩
      · simp only [List.takeWhile_cons, hc]
        exact List.nil_prefix

theorem hasUrlToken_cons_false (c : Char) (cs : List Char)
    (h : hasUrlToken (c :: cs) = false) : hasUrlToken cs = false := by
  rw [hasUrlToken] at h
  exact (Bool.or_eq_false_iff.mp h).2

theorem collapseAux_noToken :
    ∀ (l : List Char) (b : Bool), hasUrlToken l = false →
    hasUrlToken (collapseAux b l) = false := by
  intro l
  induction l with
  | nil => intro b _; cases b <;> rfl
  | cons c cs ih =>
    intro b h
    have hcs := hasUrlToken_cons_false c cs h
    by_cases hw : pyWhite c = true
    · cases b with
      | true =>
        rw [(collapse_ws_step c cs hw).1]
        exact ih true hcs
      | false =>
        rw [(collapse_ws_step c cs hw).2, hasUrlToken, ih true hcs, Bool.or_false]
        rw [urlMatchAt_ne_h ' ' _ (by decide)]
        rfl
    · rw [collapse_nws_step c cs b (Bool.not_eq_true _ ▸ hw), hasUrlToken,
        ih false hcs, Bool.or_false]
      by_cases hh : (urlMatchAt (c :: collapseAux false cs)).isSome = true
      · exfalso
        have hpx : (c :: collapseAux false cs).takeWhile urlChar <+:
            (c :: cs).takeWhile urlChar := by
          have hx := collapseAux_takeWhile (c :: cs)
          rw [collapse_nws_step c cs false (Bool.not_eq_true _ ▸ hw)] at hx
          exact hx
        have h2 := urlMatch_transfer _ _ hpx hh
        rw [hasUrlToken, h2] at h
        simp at h
      · simp at hh
        simp [hh]

theorem hasUrlToken_suffix_mono :
    ∀ (l l2 : List Char), l2 <:+ l → hasUrlToken l = false →
    hasUrlToken l2 = false := by
  intro l
  induction l with
  | nil =>
    intro l2 h _
    rw [List.suffix_nil.mp h]
    rfl
  | cons c cs ih =>
    intro l2 h hf
    rcases List.suffix_cons_iff.mp h with h1 | h1
    · rw [h1]
      exact hf
    · exact ih l2 h1 (hasUrlToken_cons_false c cs hf)

theorem hasUrlToken_prefix_mono :
    ∀ (l2 l : List Char), l2 <+: l → hasUrlToken l = false →
    hasUrlToken l2 = false := by
  intro l2
  induction l2 with
  | nil => intro l _ _; rfl
  | cons c cs2 ih =>
    intro l h hf
    cases l with
    | nil => exact absurd (List.prefix_nil.mp h) (by simp)
    | cons d cs =>
      obtain ⟨rfl, hcs⟩ := List.cons_prefix_cons.mp h
      rw [hasUrlToken, ih cs hcs (hasUrlToken_cons_false c cs hf), Bool.or_false]
      by_cases hh : (urlMatchAt (c :: cs2)).isSome = true
      · exfalso
        have hpx : (c :: cs2).takeWhile urlChar <+: (c :: cs).takeWhile urlChar :=
          takeWhile_prefix_mono urlChar _ _ (List.cons_prefix_cons.mpr ⟨rfl, hcs⟩)
        have h2 := urlMatch_transfer _ _ hpx hh
        rw [hasUrlToken, h2] at hf
        simp at hf
      · simp at hh
        simp [hh]

theorem collapse_false_head (l : List Char) (y : Char)
    (h : (collapseAux false l).head? = some y) : y = ' ' ∨ l.head? = some y := by
  cases l with
  | nil => simp [collapseAux] at h
  | cons c cs =>
    by_cases hw : pyWhite c = true
    · rw [(collapse_ws_step c cs hw).2] at h
      simp only [List.head?_cons, Option.some.injEq] at h
      exact Or.inl h.symm
    · rw [collapse_nws_step c cs false (Bool.not_eq_true _ ▸ hw)] at h
      simp only [List.head?_cons] at h
      exact Or.inr h

theorem collapseAux_noHD :
    ∀ (l : List Char) (b : Bool), noHashDigit l → noHashDigit (collapseAux b l) := by
  intro l
  induction l with
  | nil => intro b _; cases b <;> simp [collapseAux, noHashDigit]
  | cons c cs ih =>
    intro b h
    have hcs : noHashDigit cs := List.Chain'.tail h
    by_cases hw : pyWhite c = true
    · cases b with
      | true =>
        rw [(collapse_ws_step c cs hw).1]
        exact ih true hcs
      | false =>
        rw [(collapse_ws_step c cs hw).2, noHashDigit, List.chain'_cons']
        refine ⟨?_, ih true hcs⟩
        intro y _
        rintro ⟨hsp, _⟩
        exact absurd hsp (by decide)
    · rw [collapse_nws_step c cs b (Bool.not_eq_true _ ▸ hw), noHashDigit,
        List.chain'_cons']
      refine ⟨?_, ih false hcs⟩
      intro y hy
      rintro ⟨rfl, hd⟩
      rcases collapse_false_head cs y (Option.mem_def.mp hy) with h1 | h1
      · subst h1
        exact absurd hd (by decide)
      · rw [noHashDigit, List.chain'_cons'] at h
        exact h.1 y h1 ⟨rfl, hd⟩

theorem pyStrip_noHD (l : List Char) (h : noHashDigit l) :
    noHashDigit (pyStrip l) :=
  List.Chain'.prefix
    (List.Chain'.suffix h (List.dropWhile_suffix pyWhite))
    (dropEndWhile_pre pyWhite _)

theorem pyStrip_noToken (l : List Char) (h : hasUrlToken l = false) :
    hasUrlToken (pyStrip l) = false :=
  hasUrlToken_prefix_mono _ _ (dropEndWhile_pre pyWhite _)
    (hasUrlToken_suffix_mono _ _ (List.dropWhile_suffix pyWhite) h)

theorem collapse_ws_space :
    ∀ (l : List Char) (b : Bool) (c : Char), c ∈ collapseAux b l →
    pyWhite c = true → c = ' ' := by
  intro l
  induction l with
  | nil =>
    intro b c hc _
    cases b <;> simp [collapseAux] at hc
  | cons d ds ih =>
    intro b c hc hwc
    by_cases hw : pyWhite d = true
    · cases b with
      | true =>
        rw [(collapse_ws_step d ds hw).1] at hc
        exact ih true c hc hwc
      | false =>
        rw [(collapse_ws_step d ds hw).2] at hc
        rcases List.mem_cons.mp hc with h1 | h1
        · exact h1
        · exact ih true c h1 hwc
    · rw [collapse_nws_step d ds b (Bool.not_eq_true _ ▸ hw)] at hc
      rcases List.mem_cons.mp hc with h1 | h1
      · subst h1
        exact absurd hwc hw
      · exact ih false c h1 hwc

theorem collapse_true_head :
    ∀ (l : List Char) (c : Char), (collapseAux true l).head? = some c →
    pyWhite c = false := by
  intro l
  induction l with
  | nil =>
    intro c h
    simp [collapseAux] at h
  | cons d ds ih =>
    intro c h
    by_cases hw : pyWhite d = true
    · rw [(collapse_ws_step d ds hw).1] at h
      exact ih c h
    · rw [collapse_nws_step d ds true (Bool.not_eq_true _ ▸ hw)] at h
      simp only [List.head?_cons, Option.some.injEq] at h
      subst h
      exact Bool.not_eq_true _ ▸ hw

theorem collapse_chain :
    ∀ (l : List Char) (b : Bool),
    (collapseAux b l).Chain' (fun a b2 => ¬(pyWhite a = true ∧ pyWhite b2 = true)) := by
  intro l
  induction l with
  | nil => intro b; cases b <;> simp [collapseAux]
  | cons d ds ih =>
    intro b
    by_cases hw : pyWhite d = true
    · cases b with
      | true =>
        rw [(collapse_ws_step d ds hw).1]
        exact ih true
      | false =>
        rw [(collapse_ws_step d ds hw).2, List.chain'_cons']
        refine ⟨?_, ih true⟩
        intro y hy
        rintro ⟨_, hy2⟩
        rw [collapse_true_head ds y (Option.mem_def.mp hy)] at hy2
        cases hy2
    · rw [collapse_nws_step d ds b (Bool.not_eq_true _ ▸ hw), List.chain'_cons']
      refine ⟨?_, ih false⟩
      intro y _
      rintro ⟨h1, _⟩
      rw [h1] at hw
      exact hw rfl

theorem pyStrip_head (l : List Char) (c : Char)
    (h : (pyStrip l).head? = some c) : pyWhite c = false := by
  rw [pyStrip] at h
  exact head_dropWhile_false pyWhite l c
    (head_of_pre _ _ c (dropEndWhile_pre pyWhite _) h)

theorem pyStrip_last (l : List Char) (c : Char)
    (h : (pyStrip l).getLast? = some c) : pyWhite c = false := by
  rw [pyStrip, dropEndWhile, List.getLast?_reverse] at h
  exact head_dropWhile_false pyWhite _ c h

theorem pyStrip_mem (l : List Char) (c : Char) (h : c ∈ pyStrip l) : c ∈ l :=
  (List.IsSuffix.subset (List.dropWhile_suffix pyWhite))
    ((List.IsPrefix.subset (dropEndWhile_pre pyWhite _)) h)

theorem wsNormalized_strip_collapse (l : List Char) :
    wsNormalized (pyStrip (collapseAux false l)) := by
  refine ⟨?_, ?_, ?_, ?_⟩
  · exact List.Chain'.prefix
      (List.Chain'.suffix (collapse_chain l false) (List.dropWhile_suffix pyWhite))
      (dropEndWhile_pre pyWhite _)
  · intro c hc hwc
    exact collapse_ws_space l false c (pyStrip_mem _ c hc) hwc
  · intro c hc
    exact pyStrip_head _ c hc
  · intro c hc
    exact pyStrip_last _ c hc

/-! ## Claim C5: assembly -/

theorem stripMergeLine_all (msg : List Char) (h1 : ciHasPre mergeWord msg = true)
    (h2 : '\n' ∉ msg) : stripMergeLine msg = [] := by
  rw [stripMergeLine, if_pos h1, List.dropWhile_eq_nil_iff]
  intro x hx
  simp only [decide_eq_true_eq]
  exact fun heq => h2 (heq ▸ hx)

theorem stripRevertLine_all (msg : List Char) (h1 : ciHasPre revertWord msg = true)
    (h2 : '\n' ∉ msg) : stripRevertLine msg = [] := by
  rw [stripRevertLine, if_pos h1, List.dropWhile_eq_nil_iff]
  intro x hx
  simp only [decide_eq_true_eq]
  exact fun heq => h2 (heq ▸ hx)

/-- C5 (amended): a message beginning with "merge" or "revert"
(case-insensitively) has its whole first line discarded, so when it
contains no newline the result is empty (the original claim fails on
multi-line messages, where text after the first newline survives); and for
every message the result contains no `#` followed by a digit, no token
matching the URL pattern, and has its whitespace collapsed to single
spaces with no leading or trailing whitespace. -/
theorem c5_clean_commit_message (msg : List Char) :
    ((ciHasPre mergeWord msg = true ∨ ciHasPre revertWord msg = true) →
      '\n' ∉ msg → cleanCommitMessage msg = []) ∧
    noHashDigit (cleanCommitMessage msg) ∧
    hasUrlToken (cleanCommitMessage msg) = false ∧
    wsNormalized (cleanCommitMessage msg) := by
  constructor
  · rintro (hm | hr) hn
    · rw [cleanCommitMessage, stripMergeLine_all msg hm hn]
      rfl
    · by_cases hm2 : ciHasPre mergeWord msg = true
      · rw [cleanCommitMessage, stripMergeLine_all msg hm2 hn]
        rfl
      · rw [cleanCommitMessage, stripMergeLine, if_neg hm2,
          stripRevertLine_all msg hr hn]
        rfl
  · have hir : noHashDigit (subIssueRefs (stripRevertLine (stripMergeLine msg))) :=
      subIssueRefs_noHashDigit _
    have hclean : cleanCommitMessage msg =
        pyStrip (collapseAux false
          (subUrls (subIssueRefs (stripRevertLine (stripMergeLine msg))))) := by
      rw [cleanCommitMessage, subFixes_id _ hir]
    rw [hclean]
    refine ⟨?_, ?_, wsNormalized_strip_collapse _⟩
    · exact pyStrip_noHD _ (collapseAux_noHD _ false
        (subUrlsF_noHD _ _ (Nat.le_refl _) hir))
    · exact pyStrip_noToken _ (collapseAux_noToken _ false
        (subUrlsF_noToken _ _ (Nat.le_refl _)))

/-- C5: counterexample to the claim as stated.  A merge message containing
a newline does not clean to the empty string: only the first line is
discarded by `re.sub(r'^Merge.*', …)`, whose `.` does not cross newlines. -/
theorem c5_multiline_merge_cex :
    ciHasPre mergeWord ("Merge branch x\ninto main".toList) = true ∧
    cleanCommitMessage ("Merge branch x\ninto main".toList) = "into main".toList ∧
    "into main".toList ≠ ([] : List Char) :=
  ⟨by decide, by decide, by decide⟩

/-- Witness for C5: a single-line merge message cleans to the empty string,
and the invariants hold on a concrete issue-reference/URL message. -/
theorem c5_clean_commit_message_witness :
    cleanCommitMessage ("Merge branch x into main".toList) = [] ∧
    noHashDigit (cleanCommitMessage ("Fix bug #123 at https://x.io ok".toList)) ∧
    hasUrlToken (cleanCommitMessage ("Fix bug #123 at https://x.io ok".toList)) =
      false ∧
    wsNormalized (cleanCommitMessage ("Fix bug #123 at https://x.io ok".toList)) :=
  ⟨(c5_clean_commit_message _).1 (Or.inl (by decide)) (by decide),
    (c5_clean_commit_message _).2.1, (c5_clean_commit_message _).2.2.1,
    (c5_clean_commit_message _).2.2.2⟩

end Spec2Proof
